import Mathlib

/-!
# Class descriptors of the goro runtime: `core/zclass.go`

A shallow embedding of `ZClass` and of its operations `Run`, `compile`,
`InstanceOf`, `BaseName` and `getStaticProps`, followed by theorems about them.

## Modelling conventions

* Go pointers are indices into arenas held by `Global`: a `*ZClass` is an index
  into `Global.classes`, a `*ZClassProp` into `Global.props`, a `*ZClassMethod`
  into `Global.methods`, a `*ZHashTable` into `Global.tables`.  Two pointers are
  the same pointer exactly when the indices are equal.  Dereferencing an index
  that is outside its arena stands for dereferencing a nil pointer: the
  operation panics.
* A Go map is a `GoMap`: either the nil map or a list of entries.  Reading a nil
  map finds nothing, writing to it panics.  The order of the entries is the
  order in which `range` visits them.  A Go map holds each key once
  (`GoMap.WF`); the operations are defined on every list, and the theorems that
  need distinct keys say so.  Each class owns its maps (two descriptors do not
  share one map object).
* Every operation returns `none` when it panics and `some` of the new state and
  its Go results otherwise.  An `error` result is an `Option Err`, `none` being
  the nil error.
* What `compile` calls but `zclass.go` does not define is a field of `Context`:
  running a delayed expression and compiling a method body.  Both are taken as
  functions of the expression or body only.
* The fields `l`, `Type`, `attr` and `HandleInvoke` of `ZClass` are read by none
  of the embedded operations and are left out.
-/

namespace Goro

/-! ## Values and maps -/

/-- `ZString`: a Go string. -/
abbrev ZString := String

/-- A `*ZClass`. -/
abbrev ClassRef := Nat
/-- A `*ZClassProp`. -/
abbrev PropRef := Nat
/-- A `*ZClassMethod`. -/
abbrev MethodRef := Nat
/-- A `*ZHashTable`. -/
abbrev TableRef := Nat

/-- The interface `Val`, as far as `zclass.go` tells its values apart: the nil
interface value, the runtime null `ZNULL`, a `*compileDelayed` (a delayed
expression, named by a number) and any other value. -/
inductive Val where
  | nil
  | ZNULL
  | scalar (n : Int)
  | compileDelayed (e : Nat)
  deriving DecidableEq, Repr

/-- The type assertion `v.(*compileDelayed)`: the delayed expression, if `v` is one. -/
def Val.asDelayed : Val → Option Nat
  | .compileDelayed e => some e
  | _ => none

/-- A `*ZVal`: a box around a `Val`, as built by `Val.ZVal()`. -/
structure ZVal where
  v : Val
  deriving DecidableEq, Repr

/-- The method `ZVal()` of a `Val`. -/
def Val.ZVal (v : Val) : ZVal := ⟨v⟩

/-- Errors.  `extendsLoop` is `errors.New("class extends loop found")`; `eval`
and `method` carry the error a delayed expression or a method body returned;
the registry's errors are those of the specification. -/
inductive Err where
  | DuplicateClass
  | ClassNotFound
  | extendsLoop
  | eval (code : Nat)
  | method (code : Nat)
  deriving DecidableEq, Repr

/-- Go's `m[k] = v` on the entries of a map: the entry of `k` is replaced where
it stands, a new key is added. -/
def setEntry {K V : Type} [DecidableEq K] : List (K × V) → K → V → List (K × V)
  | [], k, v => [(k, v)]
  | (k', v') :: es, k, v =>
    if k' = k then (k, v) :: es else (k', v') :: setEntry es k v

/-- The value stored under `k` in a list of entries. -/
def findEntry {K V : Type} [DecidableEq K] : List (K × V) → K → Option V
  | [], _ => none
  | (k', v') :: es, k => if k' = k then some v' else findEntry es k

/-- A Go map: the nil map, or a map with its entries. -/
inductive GoMap (K V : Type) where
  | nil
  | make (entries : List (K × V))
  deriving DecidableEq, Repr

namespace GoMap

variable {K V : Type} [DecidableEq K]

/-- The entries `range m` visits. -/
def entries : GoMap K V → List (K × V)
  | .nil => []
  | .make es => es

/-- The keys of the map. -/
def keys (m : GoMap K V) : List K := m.entries.map Prod.fst

/-- The first result of `v, ok := m[k]`. -/
def lookup (m : GoMap K V) (k : K) : Option V := findEntry m.entries k

/-- The second result of `_, ok := m[k]`. -/
def found (m : GoMap K V) (k : K) : Bool := (m.lookup k).isSome

/-- The assignment `m[k] = v`; it panics on the nil map. -/
def set : GoMap K V → K → V → Option (GoMap K V)
  | .nil, _, _ => none
  | .make es, k, v => some (.make (setEntry es k v))

/-- A Go map holds each key once. -/
def WF (m : GoMap K V) : Prop := m.keys.Nodup

instance (m : GoMap K V) : Decidable m.WF := by
  unfold WF; infer_instance

end GoMap

/-! ## The data model -/

/-- `ZObjectAttr`: the modifier bits of a property or method. -/
structure ZObjectAttr where
  bits : Nat
  deriving DecidableEq, Repr

/-- Modelled from the spec: `ZObjectAttr.IsStatic` is not defined in
`zclass.go`; the specification describes the modifier flags as a bit-set with
an `is_static` query.  The static flag is taken to be bit 0. -/
def ZObjectAttr.IsStatic (a : ZObjectAttr) : Bool := a.bits.testBit 0

/-- `ZClassProp`. -/
structure ZClassProp where
  VarName : ZString
  Default : Val
  Modifiers : ZObjectAttr
  deriving DecidableEq, Repr

/-- The interface `Callable`: a body that also implements `compilable`, or any
other body (the nil interface included). -/
inductive Callable where
  | other (id : Nat)
  | compilable (id : Nat)
  deriving DecidableEq, Repr

/-- `ZClassMethod`. -/
structure ZClassMethod where
  Name : ZString
  Modifiers : ZObjectAttr
  Method : Callable
  deriving DecidableEq, Repr

/-- `ZClass`. -/
structure ZClass where
  Name : ZString
  ExtendsStr : ZString
  ImplementsStr : List ZString
  parents : GoMap ClassRef ClassRef
  Extends : Option ClassRef
  Implements : List ClassRef
  Const : GoMap ZString Val
  Props : List PropRef
  Methods : GoMap ZString MethodRef
  StaticProps : Option TableRef
  Constructor : Option MethodRef
  deriving DecidableEq, Repr

/-- Modelled from the spec: the ordered map behind `ZHashTable` is not defined
in `zclass.go`; the specification asks for an insertion-order-preserving
mapping with get, set and iteration in order. -/
abbrev ZHashTable := List (ZString × ZVal)

/-- `NewHashTable()`. -/
def NewHashTable : ZHashTable := []

/-- `ZHashTable.SetString`. -/
def ZHashTable.SetString (t : ZHashTable) (k : ZString) (v : ZVal) : ZHashTable :=
  setEntry t k v

/-- `ZHashTable.GetString`. -/
def ZHashTable.GetString (t : ZHashTable) (k : ZString) : Option ZVal :=
  findEntry t k

/-- The state the operations work on: the arenas of the objects reachable
through pointers, and the class registry of `ctx.Global()`. -/
structure Global where
  classes : List ZClass
  props : List ZClassProp
  methods : List ZClassMethod
  tables : List ZHashTable
  registry : List (ZString × ClassRef)
  deriving DecidableEq, Repr

/-- What the execution context does for `compile`: `Run` is
`(*compileDelayed).Run(ctx)` followed by `Value()`, `compile` is
`compilable.compile(ctx)` (its error, `none` for nil). -/
structure Context where
  Run : Nat → Except Nat Val
  compile : Nat → Option Nat

/-- The assignment of a whole descriptor to `*c`. -/
def Global.setClass (g : Global) (c : ClassRef) (cls : ZClass) : Global :=
  { g with classes := g.classes.set c cls }

/-- Modelled from the spec: `RegisterClass` of the class registry is not in
`zclass.go`.  It fails with `DuplicateClass` if the name is already bound and
binds it otherwise. -/
def RegisterClass (g : Global) (name : ZString) (c : ClassRef) : Except Err Global :=
  if (findEntry g.registry name).isSome then .error .DuplicateClass
  else .ok { g with registry := g.registry ++ [(name, c)] }

/-- Modelled from the spec: `GetClass` of the class registry is not in
`zclass.go`.  It returns the bound descriptor and fails with `ClassNotFound` if
the name is unbound (no autoload hook is configured). -/
def GetClass (g : Global) (name : ZString) : Except Err ClassRef :=
  match findEntry g.registry name with
  | some c => .ok c
  | none => .error .ClassNotFound

/-! ## `compile` -/

/-- The loop `for n, m := range c.Extends.Methods`: a method of the parent is
stored under its name unless the class has an entry of that name. -/
def importMethods : List (ZString × MethodRef) → GoMap ZString MethodRef →
    Option (GoMap ZString MethodRef)
  | [], own => some own
  | (n, m) :: rest, own =>
    if own.found n then importMethods rest own
    else
      match own.set n m with
      | none => none
      | some own1 => importMethods rest own1

/-- The block `if c.ExtendsStr != ""` of `compile`, with the statement
`c.parents = make(...)` before it. -/
def resolveExtends (g : Global) (c : ClassRef) : Option (Global × Option Err) :=
  match g.classes[c]? with
  | none => none
  | some cls =>
    let cls1 : ZClass := { cls with parents := .make [] }
    let g1 := g.setClass c cls1
    if cls1.ExtendsStr = "" then some (g1, none)
    else
      match GetClass g1 cls1.ExtendsStr with
      | .error err => some (g1, some err)
      | .ok subc =>
        if cls1.parents.found subc then some (g1, some .extendsLoop)
        else
          match cls1.parents.set subc subc with
          | none => none
          | some ps =>
            let cls2 : ZClass := { cls1 with Extends := some subc, parents := ps }
            let g2 := g1.setClass c cls2
            match g2.classes[subc]? with
            | none => none
            | some parent =>
              match importMethods parent.Methods.entries cls2.Methods with
              | none => none
              | some ms => some (g2.setClass c { cls2 with Methods := ms }, none)

/-- The loop `for k, v := range c.Const` over the entries still to visit; the
first result is the map as the loop leaves it. -/
def forceConsts (ctx : Context) : List (ZString × Val) → GoMap ZString Val →
    Option (GoMap ZString Val × Option Err)
  | [], cm => some (cm, none)
  | (k, v) :: rest, cm =>
    match v.asDelayed with
    | none => forceConsts ctx rest cm
    | some e =>
      match ctx.Run e with
      | .error code => some (cm, some (.eval code))
      | .ok z =>
        match cm.set k z with
        | none => none
        | some cm1 => forceConsts ctx rest cm1

/-- The loop over `c.Const` of `compile`. -/
def compileConsts (ctx : Context) (g : Global) (c : ClassRef) : Option (Global × Option Err) :=
  match g.classes[c]? with
  | none => none
  | some cls =>
    match forceConsts ctx cls.Const.entries cls.Const with
    | none => none
    | some (cm, err) => some (g.setClass c { cls with Const := cm }, err)

/-- The loop `for _, p := range c.Props` over the pointers still to visit; the
first result is the arena of properties as the loop leaves it. -/
def forceProps (ctx : Context) : List PropRef → List ZClassProp →
    Option (List ZClassProp × Option Err)
  | [], ps => some (ps, none)
  | p :: rest, ps =>
    match ps[p]? with
    | none => none
    | some prop =>
      match prop.Default.asDelayed with
      | none => forceProps ctx rest ps
      | some e =>
        match ctx.Run e with
        | .error code => some (ps, some (.eval code))
        | .ok z => forceProps ctx rest (ps.set p { prop with Default := z })

/-- The loop over `c.Props` of `compile`. -/
def compileProps (ctx : Context) (g : Global) (c : ClassRef) : Option (Global × Option Err) :=
  match g.classes[c]? with
  | none => none
  | some cls =>
    match forceProps ctx cls.Props g.props with
    | none => none
    | some (ps, err) => some ({ g with props := ps }, err)

/-- The loop `for _, m := range c.Methods` over the entries still to visit. -/
def compileBodies (ctx : Context) (methods : List ZClassMethod) :
    List (ZString × MethodRef) → Option (Option Err)
  | [] => some none
  | (_, m) :: rest =>
    match methods[m]? with
    | none => none
    | some zm =>
      match zm.Method with
      | .other _ => compileBodies ctx methods rest
      | .compilable body =>
        match ctx.compile body with
        | some code => some (some (.method code))
        | none => compileBodies ctx methods rest

/-- The loop over `c.Methods` of `compile`. -/
def compileMethods (ctx : Context) (g : Global) (c : ClassRef) : Option (Global × Option Err) :=
  match g.classes[c]? with
  | none => none
  | some cls =>
    match compileBodies ctx g.methods cls.Methods.entries with
    | none => none
    | some err => some (g, err)

/-- Sequencing of two parts of a Go function body: a panic or a returned error
of the first part ends the function. -/
def andThen (r : Option (Global × Option Err)) (k : Global → Option (Global × Option Err)) :
    Option (Global × Option Err) :=
  match r with
  | none => none
  | some (g, some err) => some (g, some err)
  | some (g, none) => k g

/-- `ZClass.compile`. -/
def compile (ctx : Context) (g : Global) (c : ClassRef) : Option (Global × Option Err) :=
  andThen (andThen (andThen (resolveExtends g c) (fun g1 => compileConsts ctx g1 c))
    (fun g2 => compileProps ctx g2 c)) (fun g3 => compileMethods ctx g3 c)

/-- `ZClass.Run`; its first result is always nil and is left out. -/
def Run (ctx : Context) (g : Global) (c : ClassRef) : Option (Global × Option Err) :=
  match g.classes[c]? with
  | none => none
  | some cls =>
    match RegisterClass g cls.Name c with
    | .error err => some (g, some err)
    | .ok g1 => compile ctx g1 c

/-- `ZClass.InstanceOf`. -/
def InstanceOf (g : Global) (c subc : ClassRef) : Option Bool :=
  match g.classes[c]? with
  | none => none
  | some cls => some (cls.parents.found subc)

/-! ## `getStaticProps` -/

/-- The loop `for _, p := range c.Props` of `getStaticProps` over the pointers
still to visit, filling the table. -/
def seedStatic (props : List ZClassProp) : List PropRef → ZHashTable → Option ZHashTable
  | [], t => some t
  | p :: rest, t =>
    match props[p]? with
    | none => none
    | some prop =>
      if !prop.Modifiers.IsStatic then seedStatic props rest t
      else if prop.Default = Val.nil then
        seedStatic props rest (t.SetString prop.VarName Val.ZNULL.ZVal)
      else seedStatic props rest (t.SetString prop.VarName prop.Default.ZVal)

/-- `ZClass.getStaticProps`: the new state, the table returned and the error
returned. -/
def getStaticProps (g : Global) (c : ClassRef) : Option (Global × TableRef × Option Err) :=
  match g.classes[c]? with
  | none => none
  | some cls =>
    match cls.StaticProps with
    | some t => some (g, t, none)
    | none =>
      let t : TableRef := g.tables.length
      let g1 : Global :=
        { g with classes := g.classes.set c { cls with StaticProps := some t },
                 tables := g.tables ++ [NewHashTable] }
      match seedStatic g1.props cls.Props NewHashTable with
      | none => none
      | some tbl => some ({ g1 with tables := g1.tables.set t tbl }, t, none)

/-! ## `BaseName` -/

/-- The scan behind `strings.LastIndexByte` over the characters still to read:
`i` is the position of the next character and `last` the position of the last
occurrence of `b` seen so far (`-1` for none). -/
def lastIndexFrom (b : Char) : List Char → Nat → Int → Int
  | [], _, last => last
  | x :: xs, i, last => lastIndexFrom b xs (i + 1) (if x = b then (i : Int) else last)

/-- Go's `strings.LastIndexByte`: the position of the last occurrence of `b` in
`s`, or `-1`.  Positions count characters: the byte searched for by `BaseName`
is a one-byte character that occurs in no multi-byte sequence, so cutting a
string after that byte and after that character are the same cut. -/
def LastIndexByte (s : ZString) (b : Char) : Int := lastIndexFrom b s.data 0 (-1)

/-- `ZClass.BaseName`. -/
def BaseName (g : Global) (c : ClassRef) : Option ZString :=
  match g.classes[c]? with
  | none => none
  | some cls =>
    let pos := LastIndexByte cls.Name '\\'
    if pos = -1 then some cls.Name
    else some ⟨cls.Name.data.drop (pos + 1).toNat⟩

/-! ## Notions the statements use -/

/-- `Run` on the classes of a list, one after the other; the result is the
last state when every call returns the nil error, and `none` otherwise. -/
def RunAll (ctx : Context) : Global → List ClassRef → Option Global
  | g, [] => some g
  | g, c :: cs =>
    match Run ctx g c with
    | some (g1, none) => RunAll ctx g1 cs
    | _ => none

/-- An inheritance chain `c0 extends c1 extends ... extends cn`: each class of
the list names the next one as its parent (its `ExtendsStr` is the `Name` of
the next one) and the last one names no parent. -/
def IsChain (g : Global) : List ClassRef → Prop
  | [] => True
  | [c] => (g.classes[c]?).map ZClass.ExtendsStr = some ""
  | c :: d :: rest =>
    (∃ cls dcl, g.classes[c]? = some cls ∧ g.classes[d]? = some dcl ∧
      cls.ExtendsStr ≠ "" ∧ cls.ExtendsStr = dcl.Name) ∧ IsChain g (d :: rest)

/-- The method entry stored under `m` by the first class of the list that
declares `m`. -/
def firstDeclared (g : Global) (m : ZString) : List ClassRef → Option MethodRef
  | [] => none
  | c :: rest =>
    match (g.classes[c]?).bind (fun cls => cls.Methods.lookup m) with
    | some x => some x
    | none => firstDeclared g m rest

/-- The evaluator yields values: what a delayed expression evaluates to is not
itself a delayed expression. -/
def Context.Concrete (ctx : Context) : Prop :=
  ∀ e z, ctx.Run e = .ok z → z.asDelayed = none

/-- The properties a list of pointers refers to, in the order of the list. -/
def propsOf (g : Global) (refs : List PropRef) : List ZClassProp :=
  refs.filterMap (fun p => g.props[p]?)

/-- The properties of a class that are flagged static, in declaration order. -/
def staticDecls (g : Global) (cls : ZClass) : List ZClassProp :=
  (propsOf g cls.Props).filter (fun prop => prop.Modifiers.IsStatic)

/-- The value a static property starts with: its `Default` when it has one,
the null value of the runtime otherwise. -/
def initialValue (prop : ZClassProp) : ZVal :=
  if prop.Default = Val.nil then Val.ZNULL.ZVal else prop.Default.ZVal

/-! ## Concrete states -/

/-- A context whose delayed expression `e` evaluates to the scalar `e` and whose
method bodies compile. -/
def exCtx : Context :=
  { Run := fun e => .ok (.scalar (Int.ofNat e)), compile := fun _ => none }

/-- A context in which the delayed expression 1 evaluates to a scalar and every
other delayed expression fails. -/
def exCtxFailing : Context :=
  { Run := fun e => if e = 1 then .ok (.scalar 1) else .error 7, compile := fun _ => none }

/-- A descriptor as the parser leaves it. -/
def exClass (name ext : ZString) (consts : List (ZString × Val)) (props : List PropRef)
    (ms : List (ZString × MethodRef)) : ZClass :=
  { Name := name, ExtendsStr := ext, ImplementsStr := [], parents := .nil, Extends := none,
    Implements := [], Const := .make consts, Props := props, Methods := .make ms,
    StaticProps := none, Constructor := none }

/-- Three classes, `A extends B`, `B extends C`, none of them registered:
`A` declares `f`, `B` declares `f` and `g`, `C` declares `h`. -/
def exFresh : Global :=
  { classes :=
      [exClass "A" "B" [("X", .compileDelayed 1), ("Y", .scalar 5)] [0, 1, 2] [("f", 0)],
       exClass "B" "C" [] [] [("f", 1), ("g", 2)],
       exClass "C" "" [] [] [("h", 3)]],
    props :=
      [{ VarName := "count", Default := .compileDelayed 2, Modifiers := ⟨1⟩ },
       { VarName := "label", Default := .scalar 3, Modifiers := ⟨0⟩ },
       { VarName := "total", Default := .nil, Modifiers := ⟨1⟩ }],
    methods :=
      [{ Name := "f", Modifiers := ⟨0⟩, Method := .other 0 },
       { Name := "f", Modifiers := ⟨0⟩, Method := .other 1 },
       { Name := "g", Modifiers := ⟨0⟩, Method := .compilable 2 },
       { Name := "h", Modifiers := ⟨0⟩, Method := .other 3 }],
    tables := [],
    registry := [] }

/-- The three classes of `exFresh`, registered under their names. -/
def exBound : Global :=
  { exFresh with registry := [("A", 0), ("B", 1), ("C", 2)] }

/-- The state in which `compile` leaves `c`, and `g` when it panics. -/
def stateAfterCompile (ctx : Context) (g : Global) (c : ClassRef) : Global :=
  match compile ctx g c with
  | some (g1, _) => g1
  | none => g

/-- The state after `Run` on all classes of a list, and `g` when one fails. -/
def stateAfterRunAll (ctx : Context) (g : Global) (cs : List ClassRef) : Global :=
  match RunAll ctx g cs with
  | some g1 => g1
  | none => g

/-- The state after `Run` on `c`, and `g` when it panics. -/
def stateAfterRun (ctx : Context) (g : Global) (c : ClassRef) : Global :=
  match Run ctx g c with
  | some (g1, _) => g1
  | none => g

/-- A single class `S` that names itself as its parent, not yet registered. -/
def exSelf : Global :=
  { classes := [exClass "S" "S" [] [] [("f", 0)]],
    props := [],
    methods := [{ Name := "f", Modifiers := ⟨0⟩, Method := .other 0 }],
    tables := [],
    registry := [] }

/-- A class `K` that declares the interface `I`, and `I`; both registered. -/
def exIface : Global :=
  { classes :=
      [{ exClass "K" "" [] [] [] with ImplementsStr := ["I"] },
       exClass "I" "" [] [] []],
    props := [],
    methods := [],
    tables := [],
    registry := [("K", 0), ("I", 1)] }

/-- The three classes of `exBound` with `A` naming a parent `Z` that is not
registered. -/
def exUnbound : Global :=
  { exBound with
    classes :=
      [exClass "A" "Z" [("X", .compileDelayed 1), ("Y", .scalar 5)] [0, 1, 2] [("f", 0)],
       exClass "B" "C" [] [] [("f", 1), ("g", 2)],
       exClass "C" "" [] [] [("h", 3)]] }

/-- The state `compile` of `A` leaves in `exUnbound`, after the registry has
gained the missing name `Z`, bound to class 2. -/
def exGained : Global :=
  { stateAfterCompile exCtx exUnbound 0 with
    registry := exUnbound.registry ++ [("Z", 2)] }

/-- A class `P` that declares the method `__construct` and a class `D` that
extends `P` and declares no method; both registered, neither with a
constructor reference. -/
def exCtor : Global :=
  { classes :=
      [exClass "D" "P" [] [] [],
       exClass "P" "" [] [] [("__construct", 0)]],
    props := [],
    methods := [{ Name := "__construct", Modifiers := ⟨0⟩, Method := .other 0 }],
    tables := [],
    registry := [("D", 0), ("P", 1)] }

/-- A class whose name carries a namespace. -/
def exNamespaced : Global :=
  { classes := [exClass "App\\Models\\User" "" [] [] []],
    props := [],
    methods := [],
    tables := [],
    registry := [] }

/-! ## Entries of a map -/

section Entries
variable {K V : Type} [DecidableEq K]

theorem findEntry_setEntry_self (es : List (K × V)) (k : K) (v : V) :
    findEntry (setEntry es k v) k = some v := by
  induction es with
  | nil => simp [setEntry, findEntry]
  | cons hd tl ih =>
    obtain ⟨k1, v1⟩ := hd
    by_cases h : k1 = k
    · simp [setEntry, findEntry, h]
    · simp [setEntry, findEntry, h, ih]

theorem findEntry_setEntry_ne (es : List (K × V)) {k k2 : K} (v : V) (h : k2 ≠ k) :
    findEntry (setEntry es k v) k2 = findEntry es k2 := by
  induction es with
  | nil => simp [setEntry, findEntry, Ne.symm h]
  | cons hd tl ih =>
    obtain ⟨k1, v1⟩ := hd
    by_cases h1 : k1 = k
    · subst h1
      simp [setEntry, findEntry, Ne.symm h]
    · by_cases h2 : k1 = k2
      · subst h2
        simp [setEntry, findEntry, h1]
      · simp [setEntry, findEntry, h1, h2, ih]

theorem findEntry_eq_none_iff (es : List (K × V)) (k : K) :
    findEntry es k = none ↔ k ∉ es.map Prod.fst := by
  induction es with
  | nil => simp [findEntry]
  | cons hd tl ih =>
    obtain ⟨k1, v1⟩ := hd
    by_cases h : k1 = k
    · simp [findEntry, h]
    · simp [findEntry, h, ih, Ne.symm h]

theorem findEntry_isSome_iff (es : List (K × V)) (k : K) :
    (findEntry es k).isSome = true ↔ k ∈ es.map Prod.fst := by
  rw [← not_iff_not, ← findEntry_eq_none_iff]
  cases findEntry es k <;> simp

theorem keys_setEntry (es : List (K × V)) (k : K) (v : V) :
    (setEntry es k v).map Prod.fst =
      if k ∈ es.map Prod.fst then es.map Prod.fst else es.map Prod.fst ++ [k] := by
  induction es with
  | nil => simp [setEntry]
  | cons hd tl ih =>
    obtain ⟨k1, v1⟩ := hd
    by_cases h : k1 = k
    · simp [setEntry, h]
    · simp only [setEntry, h, if_false, List.map_cons, ih, List.mem_cons, Ne.symm h, false_or]
      split <;> simp

theorem findEntry_append (es fs : List (K × V)) (k : K) :
    findEntry (es ++ fs) k = (findEntry es k).orElse (fun _ => findEntry fs k) := by
  induction es with
  | nil => simp [findEntry]
  | cons hd tl ih =>
    obtain ⟨k1, v1⟩ := hd
    by_cases h : k1 = k
    · simp [findEntry, h]
    · simp [findEntry, h, ih]

theorem setEntry_of_findEntry (es : List (K × V)) (k : K) (v : V)
    (h : findEntry es k = some v) : setEntry es k v = es := by
  induction es with
  | nil => simp [findEntry] at h
  | cons hd tl ih =>
    obtain ⟨k1, v1⟩ := hd
    by_cases h1 : k1 = k
    · simp [findEntry, h1] at h
      simp [setEntry, h1, h]
    · simp [findEntry, h1] at h
      simp [setEntry, h1, ih h]

end Entries

namespace GoMap
variable {K V : Type} [DecidableEq K]

theorem lookup_set_self {m m1 : GoMap K V} {k : K} {v : V} (h : m.set k v = some m1) :
    m1.lookup k = some v := by
  cases m with
  | nil => simp [set] at h
  | make es =>
    simp only [set, Option.some.injEq] at h
    subst h
    exact findEntry_setEntry_self es k v

theorem lookup_set_ne {m m1 : GoMap K V} {k k2 : K} {v : V} (h : m.set k v = some m1)
    (hne : k2 ≠ k) : m1.lookup k2 = m.lookup k2 := by
  cases m with
  | nil => simp [set] at h
  | make es =>
    simp only [set, Option.some.injEq] at h
    subst h
    exact findEntry_setEntry_ne es v hne

theorem found_iff_mem_keys (m : GoMap K V) (k : K) : m.found k = true ↔ k ∈ m.keys :=
  findEntry_isSome_iff m.entries k

theorem found_eq_false_iff (m : GoMap K V) (k : K) : m.found k = false ↔ m.lookup k = none := by
  unfold found
  cases m.lookup k <;> simp

end GoMap

/-! ## The arena of classes -/

theorem classes_setClass_self {g : Global} {c : ClassRef} {cls : ZClass} (x : ZClass)
    (h : g.classes[c]? = some cls) : (g.setClass c x).classes[c]? = some x := by
  obtain ⟨hlt, -⟩ := List.getElem?_eq_some.mp h
  simp [Global.setClass, List.getElem?_set, hlt]

theorem classes_setClass_ne (g : Global) {c d : ClassRef} (x : ZClass) (h : d ≠ c) :
    (g.setClass c x).classes[d]? = g.classes[d]? := by
  simp [Global.setClass, List.getElem?_set, Ne.symm h]

theorem setClass_setClass (g : Global) (c : ClassRef) (x y : ZClass) :
    (g.setClass c x).setClass c y = g.setClass c y := by
  simp [Global.setClass, List.set_set]

theorem setClass_same {g : Global} {c : ClassRef} {cls : ZClass}
    (h : g.classes[c]? = some cls) : g.setClass c cls = g := by
  obtain ⟨hlt, hget⟩ := List.getElem?_eq_some.mp h
  have : g.classes.set c cls = g.classes := by
    apply List.ext_getElem? 
    intro i
    by_cases hi : c = i
    · subst hi; simp [List.getElem?_set, hlt, h]
    · simp [List.getElem?_set, hi]
  cases g
  simp only [Global.setClass] at this ⊢
  simp [this]

/-! ## The import of the parent's methods -/

theorem importMethods_lookup {ms : List (ZString × MethodRef)} {own own1 : GoMap ZString MethodRef}
    (h : importMethods ms own = some own1) (k : ZString) :
    own1.lookup k = (own.lookup k).orElse (fun _ => findEntry ms k) := by
  induction ms generalizing own with
  | nil =>
    simp only [importMethods, Option.some.injEq] at h
    subst h
    cases own.lookup k <;> simp [findEntry]
  | cons hd tl ih =>
    obtain ⟨n, m⟩ := hd
    unfold importMethods at h
    split at h
    · rename_i hf
      rw [ih h]
      by_cases hk : n = k
      · subst hk
        unfold GoMap.found at hf
        cases hl : own.lookup n with
        | none => simp [hl] at hf
        | some x => simp
      · simp [findEntry, hk]
    · rename_i hf
      split at h
      · exact absurd h (by simp)
      · rename_i own2 hset
        have hnone : own.lookup n = none := by
          rw [← GoMap.found_eq_false_iff]; simpa using hf
        rw [ih h]
        by_cases hk : n = k
        · subst hk
          simp [GoMap.lookup_set_self hset, hnone, findEntry]
        · rw [GoMap.lookup_set_ne hset (Ne.symm hk)]
          simp [findEntry, hk]

theorem importMethods_all_found {ms : List (ZString × MethodRef)} {own : GoMap ZString MethodRef}
    (h : ∀ k, k ∈ ms.map Prod.fst → own.found k = true) : importMethods ms own = some own := by
  induction ms with
  | nil => rfl
  | cons hd tl ih =>
    obtain ⟨n, m⟩ := hd
    have hn : own.found n = true := h n (by simp)
    simp only [importMethods, hn, if_true]
    exact ih (fun k hk => h k (by simp at hk ⊢; exact Or.inr hk))

/-! ## The parts of `compile` -/

theorem GetClass_setClass (g : Global) (c : ClassRef) (x : ZClass) (n : ZString) :
    GetClass (g.setClass c x) n = GetClass g n := rfl

/-- The block that resolves the parent, with the loop check evaluated and the
read of `c.Extends.Methods` taken back to the state before the call. -/
theorem resolveExtends_eq {g : Global} {c : ClassRef} {cls : ZClass}
    (h : g.classes[c]? = some cls) :
    resolveExtends g c =
      if cls.ExtendsStr = "" then some (g.setClass c { cls with parents := .make [] }, none)
      else
        match GetClass g cls.ExtendsStr with
        | .error err => some (g.setClass c { cls with parents := .make [] }, some err)
        | .ok subc =>
          match g.classes[subc]? with
          | none => none
          | some p0 =>
            match importMethods p0.Methods.entries cls.Methods with
            | none => none
            | some ms =>
              some (g.setClass c { cls with parents := .make [(subc, subc)],
                                            Extends := some subc, Methods := ms }, none) := by
  unfold resolveExtends
  simp only [h]
  by_cases he : cls.ExtendsStr = ""
  · simp [he]
  · simp only [he, if_false, GetClass_setClass]
    cases hg : GetClass g cls.ExtendsStr with
    | error err => rfl
    | ok subc =>
      simp only [GoMap.found, GoMap.lookup, GoMap.entries, findEntry, Option.isSome_none,
        Bool.false_eq_true, if_false, GoMap.set, setEntry, setClass_setClass]
      by_cases hs : subc = c
      · subst hs
        rw [classes_setClass_self _ h]
        simp only [h]
      · rw [classes_setClass_ne _ _ hs]

/-- What the block that resolves the parent returns, case by case. -/
theorem resolveExtends_some {g g1 : Global} {c : ClassRef} {r : Option Err}
    (h : resolveExtends g c = some (g1, r)) :
    ∃ cls, g.classes[c]? = some cls ∧
      ((cls.ExtendsStr = "" ∧ r = none ∧ g1 = g.setClass c { cls with parents := .make [] }) ∨
       (cls.ExtendsStr ≠ "" ∧ ∃ err, GetClass g cls.ExtendsStr = .error err ∧ r = some err ∧
          g1 = g.setClass c { cls with parents := .make [] }) ∨
       (cls.ExtendsStr ≠ "" ∧ ∃ subc p0 ms, GetClass g cls.ExtendsStr = .ok subc ∧
          g.classes[subc]? = some p0 ∧
          importMethods p0.Methods.entries cls.Methods = some ms ∧ r = none ∧
          g1 = g.setClass c { cls with parents := .make [(subc, subc)],
                                       Extends := some subc, Methods := ms })) := by
  cases hc : g.classes[c]? with
  | none => simp [resolveExtends, hc] at h
  | some cls =>
    refine ⟨cls, rfl, ?_⟩
    rw [resolveExtends_eq hc] at h
    by_cases he : cls.ExtendsStr = ""
    · rw [if_pos he] at h
      simp only [Option.some.injEq, Prod.mk.injEq] at h
      exact Or.inl ⟨he, h.2.symm, h.1.symm⟩
    · rw [if_neg he] at h
      cases hg : GetClass g cls.ExtendsStr with
      | error err =>
        simp only [hg, Option.some.injEq, Prod.mk.injEq] at h
        exact Or.inr (Or.inl ⟨he, err, rfl, h.2.symm, h.1.symm⟩)
      | ok subc =>
        simp only [hg] at h
        cases hp : g.classes[subc]? with
        | none => simp [hp] at h
        | some p0 =>
          simp only [hp] at h
          cases hi : importMethods p0.Methods.entries cls.Methods with
          | none => simp [hi] at h
          | some ms =>
            simp only [hi, Option.some.injEq, Prod.mk.injEq] at h
            exact Or.inr (Or.inr ⟨he, subc, p0, ms, rfl, hp, hi, h.2.symm, h.1.symm⟩)

/-- The descriptor the block that resolves the parent leaves in `*c`: the
fields it does not assign are those of the descriptor before the call. -/
theorem resolveExtends_frame {g g1 : Global} {c : ClassRef} {r : Option Err}
    (h : resolveExtends g c = some (g1, r)) :
    ∃ cls cls1, g.classes[c]? = some cls ∧ g1 = g.setClass c cls1 ∧
      cls1.Name = cls.Name ∧ cls1.ExtendsStr = cls.ExtendsStr ∧
      cls1.ImplementsStr = cls.ImplementsStr ∧ cls1.Implements = cls.Implements ∧
      cls1.Const = cls.Const ∧ cls1.Props = cls.Props ∧
      cls1.StaticProps = cls.StaticProps ∧ cls1.Constructor = cls.Constructor := by
  obtain ⟨cls, hc, h1 | ⟨-, err, -, -, h2⟩ | ⟨-, subc, p0, ms, -, -, -, -, h3⟩⟩ :=
    resolveExtends_some h
  · exact ⟨cls, _, hc, h1.2.2, rfl, rfl, rfl, rfl, rfl, rfl, rfl, rfl⟩
  · exact ⟨cls, _, hc, h2, rfl, rfl, rfl, rfl, rfl, rfl, rfl, rfl⟩
  · exact ⟨cls, _, hc, h3, rfl, rfl, rfl, rfl, rfl, rfl, rfl, rfl⟩

/-- An error of the block that resolves the parent is the result of `compile`. -/
theorem compile_of_resolve_err (ctx : Context) {g g0 : Global} {c : ClassRef} {err : Err}
    (hr : resolveExtends g c = some (g0, some err)) :
    compile ctx g c = some (g0, some err) := by
  unfold compile
  rw [hr]
  rfl

/-- The rest of `compile` once the parent is resolved. -/
theorem compile_of_resolve (ctx : Context) {g : Global} {c : ClassRef} {cls cls1 : ZClass}
    (hc : g.classes[c]? = some cls)
    (hr : resolveExtends g c = some (g.setClass c cls1, none)) :
    compile ctx g c =
      match forceConsts ctx cls1.Const.entries cls1.Const with
      | none => none
      | some (cm, some err) => some (g.setClass c { cls1 with Const := cm }, some err)
      | some (cm, none) =>
        match forceProps ctx cls1.Props g.props with
        | none => none
        | some (ps, some err) =>
          some ({ g.setClass c { cls1 with Const := cm } with props := ps }, some err)
        | some (ps, none) =>
          match compileBodies ctx g.methods cls1.Methods.entries with
          | none => none
          | some r => some ({ g.setClass c { cls1 with Const := cm } with props := ps }, r) := by
  unfold compile
  rw [hr]
  simp only [andThen, compileConsts, classes_setClass_self _ hc, setClass_setClass]
  cases hf : forceConsts ctx cls1.Const.entries cls1.Const with
  | none => rfl
  | some p =>
    obtain ⟨cm, r2⟩ := p
    cases r2 with
    | some err => rfl
    | none =>
      simp only [compileProps, classes_setClass_self _ hc]
      have hps : (g.setClass c { cls1 with Const := cm }).props = g.props := rfl
      rw [hps]
      cases hq : forceProps ctx cls1.Props g.props with
      | none => rfl
      | some q =>
        obtain ⟨ps, r3⟩ := q
        cases r3 with
        | some err => rfl
        | none =>
          simp only [compileMethods]
          have hcl : ({ g.setClass c { cls1 with Const := cm } with props := ps } :
              Global).classes[c]? = some { cls1 with Const := cm } :=
            classes_setClass_self _ hc
          rw [hcl]
          simp only []
          have hm : ({ g.setClass c { cls1 with Const := cm } with props := ps } :
              Global).methods = g.methods := rfl
          rw [hm]

/-- A successful `compile`, part by part. -/
theorem compile_success {ctx : Context} {g g1 : Global} {c : ClassRef}
    (h : compile ctx g c = some (g1, none)) :
    ∃ cls cls1 cm ps, g.classes[c]? = some cls ∧
      resolveExtends g c = some (g.setClass c cls1, none) ∧
      forceConsts ctx cls1.Const.entries cls1.Const = some (cm, none) ∧
      forceProps ctx cls1.Props g.props = some (ps, none) ∧
      compileBodies ctx g.methods cls1.Methods.entries = some none ∧
      g1 = { g.setClass c { cls1 with Const := cm } with props := ps } := by
  cases hre : resolveExtends g c with
  | none => simp [compile, hre, andThen] at h
  | some p =>
    obtain ⟨g0, r1⟩ := p
    obtain ⟨cls, cls1, hc, hg0, -⟩ := resolveExtends_frame hre
    subst hg0
    cases r1 with
    | some err => simp [compile_of_resolve_err ctx hre] at h
    | none =>
      rw [compile_of_resolve ctx hc hre] at h
      cases hf : forceConsts ctx cls1.Const.entries cls1.Const with
      | none => simp [hf] at h
      | some p =>
        obtain ⟨cm, r2⟩ := p
        cases r2 with
        | some err => simp [hf] at h
        | none =>
          simp only [hf] at h
          cases hq : forceProps ctx cls1.Props g.props with
          | none => simp [hq] at h
          | some q =>
            obtain ⟨ps, r3⟩ := q
            cases r3 with
            | some err => simp [hq] at h
            | none =>
              simp only [hq] at h
              cases hb : compileBodies ctx g.methods cls1.Methods.entries with
              | none => simp [hb] at h
              | some r =>
                simp only [hb, Option.some.injEq, Prod.mk.injEq] at h
                obtain ⟨h1, h2⟩ := h
                subst h2
                exact ⟨cls, cls1, cm, ps, hc, rfl, hf, hq, hb, h1.symm⟩

/-- Whatever `compile` returns, it assigns to `*c` and to the properties only,
and in `*c` it assigns to `parents`, `Extends`, `Methods` and `Const` only. -/
theorem compile_frame {ctx : Context} {g g1 : Global} {c : ClassRef} {r : Option Err}
    (h : compile ctx g c = some (g1, r)) :
    ∃ cls cls1, g.classes[c]? = some cls ∧ g1.classes = g.classes.set c cls1 ∧
      g1.registry = g.registry ∧ g1.methods = g.methods ∧ g1.tables = g.tables ∧
      cls1.Name = cls.Name ∧ cls1.ExtendsStr = cls.ExtendsStr ∧
      cls1.ImplementsStr = cls.ImplementsStr ∧ cls1.Implements = cls.Implements ∧
      cls1.Props = cls.Props ∧ cls1.StaticProps = cls.StaticProps ∧
      cls1.Constructor = cls.Constructor := by
  cases hre : resolveExtends g c with
  | none => simp [compile, hre, andThen] at h
  | some p =>
    obtain ⟨g0, r1⟩ := p
    obtain ⟨cls, cls1, hc, hg0, hN, hE, hIS, hI, -, hP, hS, hK⟩ := resolveExtends_frame hre
    subst hg0
    cases r1 with
    | some err =>
      simp only [compile_of_resolve_err ctx hre, Option.some.injEq, Prod.mk.injEq] at h
      obtain ⟨h1, -⟩ := h
      subst h1
      exact ⟨cls, cls1, hc, rfl, rfl, rfl, rfl, hN, hE, hIS, hI, hP, hS, hK⟩
    | none =>
      rw [compile_of_resolve ctx hc hre] at h
      cases hf : forceConsts ctx cls1.Const.entries cls1.Const with
      | none => simp [hf] at h
      | some p =>
        obtain ⟨cm, r2⟩ := p
        cases r2 with
        | some err =>
          simp only [hf, Option.some.injEq, Prod.mk.injEq] at h
          obtain ⟨h1, -⟩ := h
          subst h1
          exact ⟨cls, _, hc, rfl, rfl, rfl, rfl, hN, hE, hIS, hI, hP, hS, hK⟩
        | none =>
          simp only [hf] at h
          cases hq : forceProps ctx cls1.Props g.props with
          | none => simp [hq] at h
          | some q =>
            obtain ⟨ps, r3⟩ := q
            cases r3 with
            | some err =>
              simp only [hq, Option.some.injEq, Prod.mk.injEq] at h
              obtain ⟨h1, -⟩ := h
              subst h1
              exact ⟨cls, _, hc, rfl, rfl, rfl, rfl, hN, hE, hIS, hI, hP, hS, hK⟩
            | none =>
              simp only [hq] at h
              cases hb : compileBodies ctx g.methods cls1.Methods.entries with
              | none => simp [hb] at h
              | some r0 =>
                simp only [hb, Option.some.injEq, Prod.mk.injEq] at h
                obtain ⟨h1, -⟩ := h
                subst h1
                exact ⟨cls, _, hc, rfl, rfl, rfl, rfl, hN, hE, hIS, hI, hP, hS, hK⟩

theorem setClass_inj {g : Global} {c : ClassRef} {cls x y : ZClass}
    (hc : g.classes[c]? = some cls) (h : g.setClass c x = g.setClass c y) : x = y := by
  have hx := classes_setClass_self x hc
  rw [h, classes_setClass_self y hc] at hx
  exact (Option.some.inj hx).symm

/-- A successful `compile` in terms of the descriptor before the call. -/
theorem compile_success_class {ctx : Context} {g g1 : Global} {c : ClassRef} {cls : ZClass}
    (hc : g.classes[c]? = some cls) (h : compile ctx g c = some (g1, none)) :
    ∃ cls1 cm ps,
      ((cls.ExtendsStr = "" ∧ cls1 = { cls with parents := .make [] }) ∨
       (cls.ExtendsStr ≠ "" ∧ ∃ subc p0 ms, GetClass g cls.ExtendsStr = .ok subc ∧
          g.classes[subc]? = some p0 ∧
          importMethods p0.Methods.entries cls.Methods = some ms ∧
          cls1 = { cls with parents := .make [(subc, subc)],
                            Extends := some subc, Methods := ms })) ∧
      forceConsts ctx cls.Const.entries cls.Const = some (cm, none) ∧
      forceProps ctx cls.Props g.props = some (ps, none) ∧
      compileBodies ctx g.methods cls1.Methods.entries = some none ∧
      g1 = { g.setClass c { cls1 with Const := cm } with props := ps } := by
  obtain ⟨cls0, cls1, cm, ps, hc0, hre, hf, hq, hb, hg1⟩ := compile_success h
  rw [hc] at hc0
  obtain rfl := Option.some.inj hc0
  obtain ⟨cls2, hc2, hcases⟩ := resolveExtends_some hre
  rw [hc] at hc2
  obtain rfl := Option.some.inj hc2
  rcases hcases with ⟨he, -, hg⟩ | ⟨-, err, -, hr, -⟩ | ⟨he, subc, p0, ms, hG, hp, hi, -, hg⟩
  · obtain rfl := setClass_inj hc hg
    exact ⟨_, cm, ps, Or.inl ⟨he, rfl⟩, hf, hq, hb, hg1⟩
  · exact absurd hr (by simp)
  · obtain rfl := setClass_inj hc hg
    exact ⟨_, cm, ps, Or.inr ⟨he, subc, p0, ms, hG, hp, hi, rfl⟩, hf, hq, hb, hg1⟩

theorem RunAll_append (ctx : Context) (g : Global) (l1 l2 : List ClassRef) :
    RunAll ctx g (l1 ++ l2) = (RunAll ctx g l1).bind (fun g1 => RunAll ctx g1 l2) := by
  induction l1 generalizing g with
  | nil => rfl
  | cons c cs ih =>
    simp only [List.cons_append, RunAll]
    cases hr : Run ctx g c with
    | none => rfl
    | some p =>
      obtain ⟨g1, r⟩ := p
      cases r with
      | none => exact ih g1
      | some err => rfl

/-- A successful `Run`: the name was unbound, and `compile` succeeded on the
state with the name bound. -/
theorem Run_success {ctx : Context} {g g1 : Global} {c : ClassRef}
    (h : Run ctx g c = some (g1, none)) :
    ∃ cls, g.classes[c]? = some cls ∧ findEntry g.registry cls.Name = none ∧
      compile ctx { g with registry := g.registry ++ [(cls.Name, c)] } c = some (g1, none) := by
  unfold Run at h
  cases hc : g.classes[c]? with
  | none => simp [hc] at h
  | some cls =>
    simp only [hc, RegisterClass] at h
    cases hf : findEntry g.registry cls.Name with
    | some d => simp [hf] at h
    | none =>
      simp only [hf, Option.isSome_none, Bool.false_eq_true, if_false] at h
      exact ⟨cls, rfl, hf, h⟩

theorem IsChain_tail {g : Global} {c : ClassRef} {rest : List ClassRef}
    (h : IsChain g (c :: rest)) : IsChain g rest := by
  cases rest with
  | nil => trivial
  | cons d r => exact h.2

theorem lookup_eq_none_iff {K V : Type} [DecidableEq K] (m : GoMap K V) (k : K) :
    m.lookup k = none ↔ k ∉ m.keys :=
  findEntry_eq_none_iff m.entries k

/-- The invariant of running a chain parent-first. -/
theorem RunAll_chain (ctx : Context) (g : Global) (m : ZString) :
    ∀ (chain : List ClassRef) (g1 : Global), IsChain g chain →
      RunAll ctx g chain.reverse = some g1 →
      (∀ x, x ∉ chain → g1.classes[x]? = g.classes[x]?) ∧
      (∀ d, d ∈ chain → ∃ cls cls1, g.classes[d]? = some cls ∧ g1.classes[d]? = some cls1 ∧
          cls1.Name = cls.Name ∧ findEntry g1.registry cls.Name = some d) ∧
      (∀ c0 rest, chain = c0 :: rest → ∃ cls cls1, g.classes[c0]? = some cls ∧
          g1.classes[c0]? = some cls1 ∧
          cls1.Methods.lookup m = firstDeclared g m chain ∧
          (m ∈ cls1.Methods.keys ↔ m ∈ cls.Methods.keys ∨
            ∃ d p, rest.head? = some d ∧ g1.classes[d]? = some p ∧ m ∈ p.Methods.keys)) := by
  intro chain
  induction chain with
  | nil =>
    intro g1 _ hrun
    simp only [List.reverse_nil, RunAll, Option.some.injEq] at hrun
    subst hrun
    exact ⟨fun _ _ => rfl, fun d hd => absurd hd (List.not_mem_nil d),
      fun c0 rest h => absurd h (by simp)⟩
  | cons c0 rest ih =>
    intro g1 hchain hrun
    rw [List.reverse_cons, RunAll_append] at hrun
    cases hmid : RunAll ctx g rest.reverse with
    | none => simp [hmid] at hrun
    | some gm =>
      simp only [hmid, Option.some_bind, RunAll] at hrun
      have hrun1 : Run ctx gm c0 = some (g1, none) := by
        cases hr : Run ctx gm c0 with
        | none => simp [hr] at hrun
        | some p =>
          obtain ⟨g2, r⟩ := p
          cases r with
          | some err => simp [hr] at hrun
          | none =>
            simp only [hr, Option.some.injEq] at hrun
            rw [hrun]
      obtain ⟨hA, hB, hC⟩ := ih gm (IsChain_tail hchain) hmid
      obtain ⟨clsm, hcm, hunbound, hcomp⟩ := Run_success hrun1
      -- the class run last is not one of its ancestors
      have hnot : c0 ∉ rest := by
        intro hmem
        obtain ⟨cls, cls1, -, h2, h3, h4⟩ := hB c0 hmem
        rw [hcm] at h2
        obtain rfl := Option.some.inj h2
        rw [← h3, hunbound] at h4
        exact absurd h4 (by simp)
      have hc0 : g.classes[c0]? = some clsm := by rw [← hA c0 hnot]; exact hcm
      set gb : Global := { gm with registry := gm.registry ++ [(clsm.Name, c0)] } with hgb
      have hcb : gb.classes[c0]? = some clsm := hcm
      obtain ⟨cls1, cm, ps, hcases, -, -, -, hg1⟩ := compile_success_class hcb hcomp
      have hfin : g1.classes[c0]? = some { cls1 with Const := cm } := by
        rw [hg1]; exact classes_setClass_self _ hcb
      have hother : ∀ x, x ≠ c0 → g1.classes[x]? = gm.classes[x]? := by
        intro x hx
        rw [hg1]
        exact classes_setClass_ne gb _ hx
      have hreg : g1.registry = gm.registry ++ [(clsm.Name, c0)] := by rw [hg1]; rfl
      have hname : cls1.Name = clsm.Name := by
        rcases hcases with ⟨-, rfl⟩ | ⟨-, subc, p0, ms, -, -, -, rfl⟩ <;> rfl
      refine ⟨?_, ?_, ?_⟩
      · intro x hx
        simp only [List.mem_cons, not_or] at hx
        rw [hother x hx.1, hA x hx.2]
      · intro d hd
        rcases List.mem_cons.mp hd with rfl | hd
        · refine ⟨clsm, _, hc0, hfin, hname, ?_⟩
          rw [hreg, findEntry_append, hunbound]
          simp [findEntry]
        · obtain ⟨cls, cls2, h1, h2, h3, h4⟩ := hB d hd
          have hne : d ≠ c0 := fun e => hnot (e ▸ hd)
          refine ⟨cls, cls2, h1, ?_, h3, ?_⟩
          · rw [hother d hne]; exact h2
          · rw [hreg, findEntry_append, h4]; rfl
      · intro c rest1 heq
        obtain ⟨rfl, rfl⟩ := List.cons.inj heq
        refine ⟨clsm, _, hc0, hfin, ?_, ?_⟩
        · -- the entry under `m`
          show cls1.Methods.lookup m = _
          rcases hcases with ⟨he, rfl⟩ | ⟨he, subc, p0, ms, hG, hp, hi, rfl⟩
          · cases rest with
            | nil =>
              simp only [firstDeclared, hc0, Option.some_bind]
              cases clsm.Methods.lookup m <;> rfl
            | cons d r => exact absurd he (by
                obtain ⟨⟨cls, dcl, h1, -, h3, -⟩, -⟩ := hchain
                rw [hc0] at h1
                obtain rfl := Option.some.inj h1
                exact h3)
          · cases rest with
            | nil =>
              have : (g.classes[c0]?).map ZClass.ExtendsStr = some "" := hchain
              rw [hc0] at this
              exact absurd (Option.some.inj this) he
            | cons d r =>
              obtain ⟨⟨cls, dcl, h1, h2, -, h4⟩, -⟩ := hchain
              rw [hc0] at h1
              obtain rfl := Option.some.inj h1
              obtain ⟨cls3, cls4, k1, k2, k3, k4⟩ := hB d (List.mem_cons_self d r)
              rw [h2] at k1
              obtain rfl := Option.some.inj k1
              have hsub : subc = d := by
                have : GetClass gb clsm.ExtendsStr = .ok d := by
                  simp only [GetClass, hgb, findEntry_append, h4, k4]
                  rfl
                rw [hG] at this
                exact Except.ok.inj this
              subst hsub
              have hp' : gm.classes[subc]? = some p0 := hp
              rw [k2] at hp'
              obtain rfl := Option.some.inj hp'
              obtain ⟨cls5, cls6, -, j2, j3, -⟩ := hC subc r rfl
              rw [k2] at j2
              obtain rfl := Option.some.inj j2
              show ms.lookup m = _
              have hfd : firstDeclared g m (c0 :: subc :: r) =
                  match (g.classes[c0]?).bind (fun cls => cls.Methods.lookup m) with
                  | some x => some x
                  | none => firstDeclared g m (subc :: r) := rfl
              rw [importMethods_lookup hi m, hfd, hc0, Option.some_bind, ← j3]
              cases hl : clsm.Methods.lookup m with
              | some x => rfl
              | none => rfl
        · -- the key set
          show m ∈ cls1.Methods.keys ↔ _
          rcases hcases with ⟨he, rfl⟩ | ⟨he, subc, p0, ms, hG, hp, hi, rfl⟩
          · cases rest with
            | nil => simp
            | cons d r => exact absurd he (by
                obtain ⟨⟨cls, dcl, h1, -, h3, -⟩, -⟩ := hchain
                rw [hc0] at h1
                obtain rfl := Option.some.inj h1
                exact h3)
          · cases rest with
            | nil =>
              have : (g.classes[c0]?).map ZClass.ExtendsStr = some "" := hchain
              rw [hc0] at this
              exact absurd (Option.some.inj this) he
            | cons d r =>
              obtain ⟨⟨cls, dcl, h1, h2, -, h4⟩, -⟩ := hchain
              rw [hc0] at h1
              obtain rfl := Option.some.inj h1
              obtain ⟨cls3, cls4, k1, k2, k3, k4⟩ := hB d (List.mem_cons_self d r)
              rw [h2] at k1
              obtain rfl := Option.some.inj k1
              have hsub : subc = d := by
                have : GetClass gb clsm.ExtendsStr = .ok d := by
                  simp only [GetClass, hgb, findEntry_append, h4, k4]
                  rfl
                rw [hG] at this
                exact Except.ok.inj this
              subst hsub
              have hp' : gm.classes[subc]? = some p0 := hp
              rw [k2] at hp'
              obtain rfl := Option.some.inj hp'
              have hne : subc ≠ c0 := fun e => hnot (e ▸ List.mem_cons_self subc r)
              have hlk := importMethods_lookup hi m
              have hpar : g1.classes[subc]? = some cls4 := by
                rw [hother subc hne]; exact k2
              have key : ms.found m = (clsm.Methods.found m || cls4.Methods.found m) := by
                unfold GoMap.found
                rw [hlk]
                have : findEntry cls4.Methods.entries m = cls4.Methods.lookup m := rfl
                rw [this]
                cases clsm.Methods.lookup m <;> cases cls4.Methods.lookup m <;> rfl
              show m ∈ ms.keys ↔ _
              rw [← GoMap.found_iff_mem_keys, key, Bool.or_eq_true, GoMap.found_iff_mem_keys,
                GoMap.found_iff_mem_keys]
              constructor
              · rintro (hl | hr)
                · exact Or.inl hl
                · exact Or.inr ⟨subc, cls4, rfl, hpar, hr⟩
              · rintro (hl | ⟨d, p, hd, hp, hm⟩)
                · exact Or.inl hl
                · right
                  simp only [List.head?_cons, Option.some.injEq] at hd
                  subst hd
                  rw [hpar] at hp
                  obtain rfl := Option.some.inj hp
                  exact hm

/-! ## The loops over the constants and the properties -/

theorem asDelayed_eq_some {v : Val} {e : Nat} (h : v.asDelayed = some e) :
    v = .compileDelayed e := by
  cases v <;> simp [Val.asDelayed] at h
  rw [h]

theorem findEntry_of_mem {K V : Type} [DecidableEq K] {es : List (K × V)}
    (hnd : (es.map Prod.fst).Nodup) {k : K} {v : V} (h : (k, v) ∈ es) :
    findEntry es k = some v := by
  induction es with
  | nil => simp at h
  | cons hd tl ih =>
    obtain ⟨k1, v1⟩ := hd
    simp only [List.map_cons, List.nodup_cons] at hnd
    rcases List.mem_cons.mp h with heq | hmem
    · obtain ⟨rfl, rfl⟩ := Prod.mk.inj heq
      simp [findEntry]
    · have hne : k1 ≠ k := by
        rintro rfl
        exact hnd.1 (List.mem_map.mpr ⟨(k1, v), hmem, rfl⟩)
      simp [findEntry, hne, ih hnd.2 hmem]

theorem GoMap.keys_set {K V : Type} [DecidableEq K] {m m1 : GoMap K V} {k : K} {v : V}
    (h : m.set k v = some m1) (hk : k ∈ m.keys) : m1.keys = m.keys := by
  cases m with
  | nil => simp [GoMap.set] at h
  | make es =>
    simp only [GoMap.set, Option.some.injEq] at h
    subst h
    simp only [GoMap.keys, GoMap.entries] at hk ⊢
    rw [keys_setEntry, if_pos hk]

/-- The loop over the constants assigns to keys of the map only. -/
theorem forceConsts_keys (ctx : Context) :
    ∀ (rest : List (ZString × Val)) (cm cm1 : GoMap ZString Val) (r : Option Err),
      (∀ k, k ∈ rest.map Prod.fst → k ∈ cm.keys) →
      forceConsts ctx rest cm = some (cm1, r) → cm1.keys = cm.keys := by
  intro rest
  induction rest with
  | nil =>
    intro cm cm1 r _ h
    simp only [forceConsts, Option.some.injEq, Prod.mk.injEq] at h
    rw [← h.1]
  | cons hd tl ih =>
    intro cm cm1 r hsub h
    obtain ⟨k0, v0⟩ := hd
    have hsub1 : ∀ k, k ∈ tl.map Prod.fst → k ∈ cm.keys :=
      fun k hk => hsub k (by simp only [List.map_cons, List.mem_cons]; exact Or.inr hk)
    have hk0 : k0 ∈ cm.keys := hsub k0 (by simp)
    unfold forceConsts at h
    cases hd : v0.asDelayed with
    | none =>
      simp only [hd] at h
      exact ih cm cm1 r hsub1 h
    | some e =>
      simp only [hd] at h
      cases hr : ctx.Run e with
      | error code =>
        simp only [hr, Option.some.injEq, Prod.mk.injEq] at h
        rw [← h.1]
      | ok z =>
        simp only [hr] at h
        cases hs : cm.set k0 z with
        | none => simp [hs] at h
        | some cm2 =>
          simp only [hs] at h
          have hkeys := GoMap.keys_set hs hk0
          rw [← hkeys]
          exact ih cm2 cm1 r (fun k hk => by rw [hkeys]; exact hsub1 k hk) h

/-- What a successful loop over the constants leaves under each key. -/
theorem forceConsts_lookup (ctx : Context) :
    ∀ (rest : List (ZString × Val)) (cm cm1 : GoMap ZString Val),
      (rest.map Prod.fst).Nodup → forceConsts ctx rest cm = some (cm1, none) →
      (∀ k, (∀ e, findEntry rest k ≠ some (.compileDelayed e)) → cm1.lookup k = cm.lookup k) ∧
      (∀ k e, findEntry rest k = some (.compileDelayed e) →
        ∃ z, ctx.Run e = .ok z ∧ cm1.lookup k = some z) := by
  intro rest
  induction rest with
  | nil =>
    intro cm cm1 _ h
    simp only [forceConsts, Option.some.injEq, Prod.mk.injEq, and_true] at h
    subst h
    exact ⟨fun _ _ => rfl, fun k e hk => by simp [findEntry] at hk⟩
  | cons hd tl ih =>
    intro cm cm1 hnd h
    obtain ⟨k0, v0⟩ := hd
    simp only [List.map_cons, List.nodup_cons] at hnd
    have hk0 : findEntry tl k0 = none := (findEntry_eq_none_iff tl k0).mpr hnd.1
    unfold forceConsts at h
    cases hd : v0.asDelayed with
    | none =>
      simp only [hd] at h
      obtain ⟨ihA, ihB⟩ := ih cm cm1 hnd.2 h
      constructor
      · intro k hk
        apply ihA
        intro e he
        by_cases hkk : k0 = k
        · subst hkk
          rw [hk0] at he
          exact absurd he (by simp)
        · exact hk e (by simp [findEntry, hkk, he])
      · intro k e hk
        by_cases hkk : k0 = k
        · subst hkk
          simp only [findEntry, if_true, Option.some.injEq] at hk
          subst hk
          simp [Val.asDelayed] at hd
        · simp only [findEntry, hkk, if_false] at hk
          exact ihB k e hk
    | some e0 =>
      simp only [hd] at h
      have hv0 := asDelayed_eq_some hd
      cases hr : ctx.Run e0 with
      | error code => simp [hr] at h
      | ok z =>
        simp only [hr] at h
        cases hs : cm.set k0 z with
        | none => simp [hs] at h
        | some cm2 =>
          simp only [hs] at h
          obtain ⟨ihA, ihB⟩ := ih cm2 cm1 hnd.2 h
          constructor
          · intro k hk
            have hkk : k ≠ k0 := by
              rintro rfl
              exact hk e0 (by simp [findEntry, hv0])
            rw [ihA k (fun e he => hk e (by simp [findEntry, Ne.symm hkk, he])),
              GoMap.lookup_set_ne hs hkk]
          · intro k e hk
            by_cases hkk : k0 = k
            · subst hkk
              simp only [findEntry, if_true, Option.some.injEq] at hk
              rw [hv0] at hk
              obtain rfl := Val.compileDelayed.inj hk
              refine ⟨z, hr, ?_⟩
              rw [ihA k0 (fun e he => by rw [hk0] at he; exact absurd he (by simp)),
                GoMap.lookup_set_self hs]
            · simp only [findEntry, hkk, if_false] at hk
              exact ihB k e hk

/-- What a successful loop over the properties leaves in the arena. -/
theorem forceProps_spec (ctx : Context) (hctx : ctx.Concrete) :
    ∀ (refs : List PropRef) (ps ps1 : List ZClassProp),
      forceProps ctx refs ps = some (ps1, none) →
      (∀ p, p ∈ refs → p < ps.length) ∧
      ∀ i prop, ps[i]? = some prop → ∃ prop1, ps1[i]? = some prop1 ∧
        prop1.VarName = prop.VarName ∧ prop1.Modifiers = prop.Modifiers ∧
        (prop.Default.asDelayed = none → prop1.Default = prop.Default) ∧
        (i ∈ refs → prop1.Default.asDelayed = none ∧
          ∀ e, prop.Default = .compileDelayed e → ∃ z, ctx.Run e = .ok z ∧ prop1.Default = z) := by
  intro refs
  induction refs with
  | nil =>
    intro ps ps1 h
    simp only [forceProps, Option.some.injEq, Prod.mk.injEq, and_true] at h
    subst h
    exact ⟨fun p hp => absurd hp (List.not_mem_nil p),
      fun i prop hi => ⟨prop, hi, rfl, rfl, fun _ => rfl, fun hm => absurd hm (List.not_mem_nil i)⟩⟩
  | cons p rest ih =>
    intro ps ps1 h
    unfold forceProps at h
    cases hp : ps[p]? with
    | none => simp [hp] at h
    | some prop0 =>
      simp only [hp] at h
      have hplt : p < ps.length := (List.getElem?_eq_some.mp hp).1
      cases hd : prop0.Default.asDelayed with
      | none =>
        simp only [hd] at h
        obtain ⟨ihV, ihS⟩ := ih ps ps1 h
        refine ⟨?_, ?_⟩
        · intro q hq
          rcases List.mem_cons.mp hq with rfl | hq
          · exact hplt
          · exact ihV q hq
        · intro i prop hi
          obtain ⟨prop1, h1, h2, h3, h4, h5⟩ := ihS i prop hi
          refine ⟨prop1, h1, h2, h3, h4, ?_⟩
          intro hmem
          rcases List.mem_cons.mp hmem with rfl | hmem
          · rw [hp] at hi
            obtain rfl := Option.some.inj hi
            refine ⟨by rw [h4 hd]; exact hd, ?_⟩
            intro e he
            rw [he] at hd
            simp [Val.asDelayed] at hd
          · exact h5 hmem
      | some e0 =>
        simp only [hd] at h
        have hv0 := asDelayed_eq_some hd
        cases hr : ctx.Run e0 with
        | error code => simp [hr] at h
        | ok z =>
          simp only [hr] at h
          have hz : z.asDelayed = none := hctx e0 z hr
          obtain ⟨ihV, ihS⟩ := ih _ ps1 h
          refine ⟨?_, ?_⟩
          · intro q hq
            rcases List.mem_cons.mp hq with rfl | hq
            · exact hplt
            · have := ihV q hq
              rwa [List.length_set] at this
          · intro i prop hi
            by_cases hip : p = i
            · subst hip
              rw [hp] at hi
              obtain rfl := Option.some.inj hi
              have hset : (ps.set p { prop0 with Default := z })[p]? =
                  some { prop0 with Default := z } := by
                simp [List.getElem?_set, hplt]
              obtain ⟨prop1, h1, h2, h3, h4, -⟩ := ihS p _ hset
              have hdef : prop1.Default = z := h4 hz
              refine ⟨prop1, h1, h2, h3, ?_, ?_⟩
              · intro hnone
                rw [hd] at hnone
                exact absurd hnone (by simp)
              · intro _
                refine ⟨by rw [hdef]; exact hz, ?_⟩
                intro e he
                rw [hv0] at he
                obtain rfl := Val.compileDelayed.inj he
                exact ⟨z, hr, hdef⟩
            · have hset : (ps.set p { prop0 with Default := z })[i]? = some prop := by
                rw [List.getElem?_set_ne hip]; exact hi
              obtain ⟨prop1, h1, h2, h3, h4, h5⟩ := ihS i prop hset
              refine ⟨prop1, h1, h2, h3, h4, ?_⟩
              intro hmem
              rcases List.mem_cons.mp hmem with rfl | hmem
              · exact absurd rfl hip
              · exact h5 hmem

/-- After a successful loop over the constants of a table no entry is a delayed
expression. -/
theorem forceConsts_no_delayed (ctx : Context) (hctx : ctx.Concrete)
    {cm0 cm : GoMap ZString Val} (hwf : cm0.WF)
    (hf : forceConsts ctx cm0.entries cm0 = some (cm, none)) :
    ∀ k v, (k, v) ∈ cm.entries → v.asDelayed = none := by
  have hkeys : cm.keys = cm0.keys := forceConsts_keys ctx _ _ _ _ (fun k hk => hk) hf
  obtain ⟨hA, hB⟩ := forceConsts_lookup ctx _ _ _ hwf hf
  intro k v hmem
  have hwf1 : (cm.entries.map Prod.fst).Nodup := by
    have : cm.keys.Nodup := by rw [hkeys]; exact hwf
    exact this
  have hl : cm.lookup k = some v := findEntry_of_mem hwf1 hmem
  cases hv : v.asDelayed with
  | none => rfl
  | some e1 =>
    exfalso
    cases hold : cm0.lookup k with
    | none =>
      have := hA k (fun e he => by
        have : cm0.lookup k = some (.compileDelayed e) := he
        rw [hold] at this
        exact absurd this (by simp))
      rw [hl, hold] at this
      exact absurd this (by simp)
    | some w =>
      cases hw : w.asDelayed with
      | none =>
        have := hA k (fun e he => by
          have h2 : cm0.lookup k = some (.compileDelayed e) := he
          rw [hold] at h2
          obtain rfl := Option.some.inj h2
          simp [Val.asDelayed] at hw)
        rw [hl, hold] at this
        obtain rfl := Option.some.inj this
        rw [hv] at hw
        exact absurd hw (by simp)
      | some e2 =>
        rw [asDelayed_eq_some hw] at hold
        obtain ⟨z, hz, hlz⟩ := hB k e2 hold
        rw [hl] at hlz
        obtain rfl := Option.some.inj hlz
        rw [hctx e2 v hz] at hv
        exact absurd hv (by simp)

/-- A loop over constants none of which is a delayed expression does nothing. -/
theorem forceConsts_noop (ctx : Context) (cm : GoMap ZString Val) :
    ∀ rest : List (ZString × Val), (∀ k v, (k, v) ∈ rest → v.asDelayed = none) →
      forceConsts ctx rest cm = some (cm, none) := by
  intro rest
  induction rest with
  | nil => intro _; rfl
  | cons hd tl ih =>
    intro h
    obtain ⟨k0, v0⟩ := hd
    have h0 : v0.asDelayed = none := h k0 v0 (List.mem_cons_self _ _)
    unfold forceConsts
    simp only [h0]
    exact ih (fun k v hm => h k v (List.mem_cons_of_mem _ hm))

/-- A loop over properties none of whose defaults is a delayed expression does
nothing. -/
theorem forceProps_noop (ctx : Context) (ps : List ZClassProp) :
    ∀ refs : List PropRef,
      (∀ p, p ∈ refs → ∃ prop, ps[p]? = some prop ∧ prop.Default.asDelayed = none) →
      forceProps ctx refs ps = some (ps, none) := by
  intro refs
  induction refs with
  | nil => intro _; rfl
  | cons p rest ih =>
    intro h
    obtain ⟨prop, hp, hd⟩ := h p (List.mem_cons_self _ _)
    unfold forceProps
    simp only [hp, hd]
    exact ih (fun q hq => h q (List.mem_cons_of_mem _ hq))

/-- The loop over the method bodies consults the context for the compilation of
bodies only. -/
theorem compileBodies_congr {ctx ctx2 : Context} (h : ctx2.compile = ctx.compile)
    (methods : List ZClassMethod) :
    ∀ es : List (ZString × MethodRef),
      compileBodies ctx2 methods es = compileBodies ctx methods es := by
  intro es
  induction es with
  | nil => rfl
  | cons hd tl ih =>
    obtain ⟨n, m⟩ := hd
    unfold compileBodies
    rw [h, ih]

/-- When the lookup of the parent fails, `compile` returns the error of the
lookup, having assigned to `c.parents` only. -/
theorem compile_lookup_error (ctx : Context) {g : Global} {c : ClassRef} {cls : ZClass}
    {err : Err} (hc : g.classes[c]? = some cls) (hne : cls.ExtendsStr ≠ "")
    (hget : GetClass g cls.ExtendsStr = .error err) :
    compile ctx g c = some (g.setClass c { cls with parents := .make [] }, some err) := by
  apply compile_of_resolve_err
  rw [resolveExtends_eq hc, if_neg hne, hget]

/-! ## The seeding of the static storage -/

/-- The loop of `getStaticProps` stores the initial value of each static
property, in the order of the declarations. -/
theorem seedStatic_eq_foldl (g : Global) :
    ∀ (refs : List PropRef) (t tbl : ZHashTable), seedStatic g.props refs t = some tbl →
      tbl = ((propsOf g refs).filter (fun prop => prop.Modifiers.IsStatic)).foldl
        (fun acc prop => setEntry acc prop.VarName (initialValue prop)) t := by
  intro refs
  induction refs with
  | nil =>
    intro t tbl h
    simp only [seedStatic, Option.some.injEq] at h
    subst h
    rfl
  | cons p rest ih =>
    intro t tbl h
    unfold seedStatic at h
    cases hp : g.props[p]? with
    | none => simp [hp] at h
    | some prop =>
      simp only [hp] at h
      have hcons : propsOf g (p :: rest) = prop :: propsOf g rest := by
        simp [propsOf, List.filterMap_cons, hp]
      rw [hcons]
      by_cases hs : prop.Modifiers.IsStatic = true
      · simp only [hs, Bool.not_true, Bool.false_eq_true, if_false] at h
        rw [List.filter_cons_of_pos (by simpa using hs), List.foldl_cons]
        by_cases hn : prop.Default = Val.nil
        · simp only [hn, if_true] at h
          have := ih _ tbl h
          rw [this]
          simp [initialValue, hn, ZHashTable.SetString]
        · simp only [hn, if_false] at h
          have := ih _ tbl h
          rw [this]
          simp [initialValue, hn, ZHashTable.SetString]
      · simp only [hs, Bool.not_false, if_true] at h
        rw [List.filter_cons_of_neg (by simpa using hs)]
        exact ih t tbl h

/-- The table built by storing a list of entries one after the other into the
empty table: its keys are the distinct keys of the list in the order of their
first occurrence, and each key holds the value of its last occurrence. -/
theorem foldl_setEntry_spec {K V : Type} [DecidableEq K] (L : List (K × V)) :
    ((L.foldl (fun acc kv => setEntry acc kv.1 kv.2) []).map Prod.fst =
        ((L.map Prod.fst).reverse.dedup).reverse) ∧
      ∀ n, findEntry (L.foldl (fun acc kv => setEntry acc kv.1 kv.2) []) n =
        findEntry L.reverse n := by
  induction L using List.reverseRecOn with
  | nil => exact ⟨rfl, fun _ => rfl⟩
  | append_singleton L kv ih =>
    obtain ⟨k, v⟩ := kv
    obtain ⟨ihK, ihF⟩ := ih
    rw [List.foldl_append]
    simp only [List.foldl_cons, List.foldl_nil]
    constructor
    · rw [keys_setEntry, ihK]
      simp only [List.map_append, List.map_cons, List.map_nil, List.reverse_append,
        List.reverse_cons, List.reverse_nil, List.nil_append, List.singleton_append,
        List.mem_reverse, List.mem_dedup]
      by_cases hk : k ∈ L.map Prod.fst
      · rw [if_pos hk, List.dedup_cons_of_mem (List.mem_reverse.mpr hk)]
      · rw [if_neg hk, List.dedup_cons_of_not_mem (fun h => hk (List.mem_reverse.mp h))]
        simp
    · intro n
      simp only [List.reverse_append, List.reverse_cons, List.reverse_nil, List.nil_append,
        List.singleton_append]
      by_cases hn : k = n
      · subst hn
        rw [findEntry_setEntry_self]
        simp [findEntry]
      · rw [findEntry_setEntry_ne _ _ (Ne.symm hn), ihF]
        simp [findEntry, hn]

theorem foldl_setEntry_map {K V A : Type} [DecidableEq K] (f : A → K) (v : A → V)
    (L : List A) (t : List (K × V)) :
    L.foldl (fun acc a => setEntry acc (f a) (v a)) t =
      (L.map (fun a => (f a, v a))).foldl (fun acc kv => setEntry acc kv.1 kv.2) t := by
  induction L generalizing t with
  | nil => rfl
  | cons a tl ih => simp only [List.foldl_cons, List.map_cons, ih]

/-! ## The ancestor set -/

/-- After a successful `compile` of a class, the class the registry returned
for the parent name it declares is in its ancestor set. -/
theorem instanceOf_direct_parent (ctx : Context) (g g1 : Global) (a b : ClassRef)
    (cls : ZClass) (hc : g.classes[a]? = some cls) (hne : cls.ExtendsStr ≠ "")
    (hget : GetClass g cls.ExtendsStr = .ok b)
    (h : compile ctx g a = some (g1, none)) :
    InstanceOf g1 a b = some true := by
  obtain ⟨cls1, cm, ps, hcases, -, -, -, hg1⟩ := compile_success_class hc h
  subst hg1
  have hfin : ({ g.setClass a { cls1 with Const := cm } with props := ps } :
      Global).classes[a]? = some { cls1 with Const := cm } := classes_setClass_self _ hc
  rcases hcases with ⟨he, -⟩ | ⟨-, subc, p0, ms, hG, -, -, rfl⟩
  · exact absurd he hne
  · rw [hget] at hG
    obtain rfl := Except.ok.inj hG
    simp only [InstanceOf, hfin]
    simp [GoMap.found, GoMap.lookup, GoMap.entries, findEntry]

/-- A successful `compile` assigns neither to `c.Implements` nor to
`c.ImplementsStr`, and the ancestor set it builds holds at most the class the
registry returned for the declared parent name. -/
theorem compile_leaves_interfaces (ctx : Context) (g g1 : Global) (c : ClassRef)
    (cls : ZClass) (hc : g.classes[c]? = some cls)
    (h : compile ctx g c = some (g1, none)) :
    ∃ cls1, g1.classes[c]? = some cls1 ∧ cls1.Implements = cls.Implements ∧
      cls1.ImplementsStr = cls.ImplementsStr ∧
      ∀ I, InstanceOf g1 c I = some true →
        cls.ExtendsStr ≠ "" ∧ GetClass g cls.ExtendsStr = .ok I := by
  obtain ⟨cls1, cm, ps, hcases, -, -, -, hg1⟩ := compile_success_class hc h
  subst hg1
  have hfin : ({ g.setClass c { cls1 with Const := cm } with props := ps } :
      Global).classes[c]? = some { cls1 with Const := cm } := classes_setClass_self _ hc
  refine ⟨_, hfin, ?_, ?_, ?_⟩
  · rcases hcases with ⟨-, rfl⟩ | ⟨-, subc, p0, ms, -, -, -, rfl⟩ <;> rfl
  · rcases hcases with ⟨-, rfl⟩ | ⟨-, subc, p0, ms, -, -, -, rfl⟩ <;> rfl
  · intro I hI
    simp only [InstanceOf, hfin, Option.some.injEq] at hI
    rcases hcases with ⟨-, rfl⟩ | ⟨he, subc, p0, ms, hG, -, -, rfl⟩
    · simp [GoMap.found, GoMap.lookup, GoMap.entries, findEntry] at hI
    · refine ⟨he, ?_⟩
      have : subc = I := by
        by_contra hne
        simp [GoMap.found, GoMap.lookup, GoMap.entries, findEntry, hne] at hI
      rw [← this]
      exact hG

/-! ## What `compile` leaves alone -/

/-- The loop over the properties assigns to the properties of its list only. -/
theorem forceProps_frame (ctx : Context) :
    ∀ (refs : List PropRef) (ps ps1 : List ZClassProp) (r : Option Err),
      forceProps ctx refs ps = some (ps1, r) →
      ∀ q, q ∉ refs → ps1[q]? = ps[q]? := by
  intro refs
  induction refs with
  | nil =>
    intro ps ps1 r h q _
    simp only [forceProps, Option.some.injEq, Prod.mk.injEq] at h
    rw [← h.1]
  | cons p rest ih =>
    intro ps ps1 r h q hq
    simp only [List.mem_cons, not_or] at hq
    unfold forceProps at h
    cases hp : ps[p]? with
    | none => simp [hp] at h
    | some prop0 =>
      simp only [hp] at h
      cases hd : prop0.Default.asDelayed with
      | none =>
        simp only [hd] at h
        exact ih ps ps1 r h q hq.2
      | some e0 =>
        simp only [hd] at h
        cases hr : ctx.Run e0 with
        | error code =>
          simp only [hr, Option.some.injEq, Prod.mk.injEq] at h
          rw [← h.1]
        | ok z =>
          simp only [hr] at h
          rw [ih _ ps1 r h q hq.2, List.getElem?_set_ne (Ne.symm hq.1)]

/-- Whatever `compile` returns, a property that is not one of `c.Props` is as
it was. -/
theorem compile_props_frame {ctx : Context} {g g1 : Global} {c : ClassRef} {cls : ZClass}
    {r : Option Err} (hc : g.classes[c]? = some cls)
    (h : compile ctx g c = some (g1, r)) :
    ∀ q, q ∉ cls.Props → g1.props[q]? = g.props[q]? := by
  intro q hq
  cases hre : resolveExtends g c with
  | none => simp [compile, hre, andThen] at h
  | some p =>
    obtain ⟨g0, r1⟩ := p
    obtain ⟨cls0, cls1, hc0, hg0, -, -, -, -, -, hP, -, -⟩ := resolveExtends_frame hre
    rw [hc] at hc0
    obtain rfl := Option.some.inj hc0
    subst hg0
    cases r1 with
    | some err =>
      simp only [compile_of_resolve_err ctx hre, Option.some.injEq, Prod.mk.injEq] at h
      rw [← h.1]
      rfl
    | none =>
      rw [compile_of_resolve ctx hc hre] at h
      cases hf : forceConsts ctx cls1.Const.entries cls1.Const with
      | none => simp [hf] at h
      | some p =>
        obtain ⟨cm, r2⟩ := p
        cases r2 with
        | some err =>
          simp only [hf, Option.some.injEq, Prod.mk.injEq] at h
          rw [← h.1]
          rfl
        | none =>
          simp only [hf] at h
          cases hq2 : forceProps ctx cls1.Props g.props with
          | none => simp [hq2] at h
          | some q2 =>
            obtain ⟨ps, r3⟩ := q2
            have hfr := forceProps_frame ctx _ _ _ _ hq2 q (by rw [hP]; exact hq)
            cases r3 with
            | some err =>
              simp only [hq2, Option.some.injEq, Prod.mk.injEq] at h
              rw [← h.1]
              exact hfr
            | none =>
              simp only [hq2] at h
              cases hb : compileBodies ctx g.methods cls1.Methods.entries with
              | none => simp [hb] at h
              | some r0 =>
                simp only [hb, Option.some.injEq, Prod.mk.injEq] at h
                rw [← h.1]
                exact hfr

/-- An error of the loop over the constants is the error of an evaluation. -/
theorem forceConsts_error (ctx : Context) :
    ∀ (rest : List (ZString × Val)) (cm cm1 : GoMap ZString Val) (e : Err),
      forceConsts ctx rest cm = some (cm1, some e) → ∃ code, e = .eval code := by
  intro rest
  induction rest with
  | nil =>
    intro cm cm1 e h
    simp [forceConsts] at h
  | cons hd tl ih =>
    intro cm cm1 e h
    obtain ⟨k0, v0⟩ := hd
    unfold forceConsts at h
    cases hd : v0.asDelayed with
    | none =>
      simp only [hd] at h
      exact ih cm cm1 e h
    | some e0 =>
      simp only [hd] at h
      cases hr : ctx.Run e0 with
      | error code =>
        simp only [hr, Option.some.injEq, Prod.mk.injEq] at h
        exact ⟨code, h.2.symm⟩
      | ok z =>
        simp only [hr] at h
        cases hs : cm.set k0 z with
        | none => simp [hs] at h
        | some cm2 =>
          simp only [hs] at h
          exact ih cm2 cm1 e h

/-- An error of the loop over the properties is the error of an evaluation. -/
theorem forceProps_error (ctx : Context) :
    ∀ (refs : List PropRef) (ps ps1 : List ZClassProp) (e : Err),
      forceProps ctx refs ps = some (ps1, some e) → ∃ code, e = .eval code := by
  intro refs
  induction refs with
  | nil =>
    intro ps ps1 e h
    simp [forceProps] at h
  | cons p rest ih =>
    intro ps ps1 e h
    unfold forceProps at h
    cases hp : ps[p]? with
    | none => simp [hp] at h
    | some prop0 =>
      simp only [hp] at h
      cases hd : prop0.Default.asDelayed with
      | none =>
        simp only [hd] at h
        exact ih ps ps1 e h
      | some e0 =>
        simp only [hd] at h
        cases hr : ctx.Run e0 with
        | error code =>
          simp only [hr, Option.some.injEq, Prod.mk.injEq] at h
          exact ⟨code, h.2.symm⟩
        | ok z =>
          simp only [hr] at h
          exact ih _ ps1 e h

/-- An error of the loop over the method bodies is the error of a body. -/
theorem compileBodies_error (ctx : Context) (methods : List ZClassMethod) :
    ∀ (es : List (ZString × MethodRef)) (e : Err),
      compileBodies ctx methods es = some (some e) → ∃ code, e = .method code := by
  intro es
  induction es with
  | nil =>
    intro e h
    simp [compileBodies] at h
  | cons hd tl ih =>
    intro e h
    obtain ⟨n, m⟩ := hd
    unfold compileBodies at h
    cases hm : methods[m]? with
    | none => simp [hm] at h
    | some zm =>
      simp only [hm] at h
      cases hb : zm.Method with
      | other i =>
        simp only [hb] at h
        exact ih e h
      | compilable body =>
        simp only [hb] at h
        cases hc : ctx.compile body with
        | some code =>
          simp only [hc, Option.some.injEq] at h
          exact ⟨code, h.symm⟩
        | none =>
          simp only [hc] at h
          exact ih e h

/-- The error `compile` returns is never the one of the loop check. -/
theorem compile_not_extendsLoop {ctx : Context} {g g1 : Global} {c : ClassRef}
    {r : Option Err} (h : compile ctx g c = some (g1, r)) : r ≠ some .extendsLoop := by
  cases hre : resolveExtends g c with
  | none => simp [compile, hre, andThen] at h
  | some p =>
    obtain ⟨g0, r1⟩ := p
    obtain ⟨cls, cls1, hc, hg0, -⟩ := resolveExtends_frame hre
    subst hg0
    cases r1 with
    | some err =>
      simp only [compile_of_resolve_err ctx hre, Option.some.injEq, Prod.mk.injEq] at h
      obtain ⟨cls2, -, h1 | ⟨-, err2, hG, hr, -⟩ | ⟨-, _, _, _, -, -, -, hr, -⟩⟩ :=
        resolveExtends_some hre
      · exact absurd h1.2.1 (by simp)
      · rw [← h.2, hr]
        have : err2 = .ClassNotFound := by
          unfold GetClass at hG
          cases hf : findEntry g.registry cls2.ExtendsStr with
          | none =>
            simp only [hf] at hG
            exact (Except.error.inj hG).symm
          | some d => simp [hf] at hG
        rw [this]
        simp
      · exact absurd hr (by simp)
    | none =>
      rw [compile_of_resolve ctx hc hre] at h
      cases hf : forceConsts ctx cls1.Const.entries cls1.Const with
      | none => simp [hf] at h
      | some p =>
        obtain ⟨cm, r2⟩ := p
        cases r2 with
        | some err =>
          simp only [hf, Option.some.injEq, Prod.mk.injEq] at h
          obtain ⟨code, hcode⟩ := forceConsts_error ctx _ _ _ _ hf
          rw [← h.2, hcode]
          simp
        | none =>
          simp only [hf] at h
          cases hq : forceProps ctx cls1.Props g.props with
          | none => simp [hq] at h
          | some q =>
            obtain ⟨ps, r3⟩ := q
            cases r3 with
            | some err =>
              simp only [hq, Option.some.injEq, Prod.mk.injEq] at h
              obtain ⟨code, hcode⟩ := forceProps_error ctx _ _ _ _ hq
              rw [← h.2, hcode]
              simp
            | none =>
              simp only [hq] at h
              cases hb : compileBodies ctx g.methods cls1.Methods.entries with
              | none => simp [hb] at h
              | some r0 =>
                simp only [hb, Option.some.injEq, Prod.mk.injEq] at h
                rw [← h.2]
                cases r0 with
                | none => simp
                | some err =>
                  obtain ⟨code, hcode⟩ := compileBodies_error ctx _ _ _ hb
                  rw [hcode]
                  simp

/-! ## The last backslash of a name -/

/-- The scan returns `last` when `b` does not occur, and the position of the
last occurrence of `b` when it does. -/
theorem lastIndexFrom_spec (b : Char) :
    ∀ (xs : List Char) (i : Nat) (last : Int),
      (b ∉ xs ∧ lastIndexFrom b xs i last = last) ∨
      (∃ pre suf, xs = pre ++ b :: suf ∧ b ∉ suf ∧
        lastIndexFrom b xs i last = ((i + pre.length : Nat) : Int)) := by
  intro xs
  induction xs with
  | nil =>
    intro i last
    exact Or.inl ⟨List.not_mem_nil b, rfl⟩
  | cons x t ih =>
    intro i last
    unfold lastIndexFrom
    rcases ih (i + 1) (if x = b then (i : Int) else last) with ⟨hn, hr⟩ | ⟨pre, suf, ht, hs, hr⟩
    · by_cases hx : x = b
      · right
        refine ⟨[], t, by rw [hx]; rfl, hn, ?_⟩
        rw [hr, if_pos hx]
        simp
      · left
        refine ⟨?_, ?_⟩
        · intro hmem
          rcases List.mem_cons.mp hmem with h1 | h1
          · exact hx h1.symm
          · exact hn h1
        · rw [hr, if_neg hx]
    · right
      refine ⟨x :: pre, suf, by rw [ht]; rfl, hs, ?_⟩
      rw [hr]
      simp only [List.length_cons]
      congr 1
      omega

/-- A list splits in one way only around the last occurrence of `b`. -/
theorem split_last_unique (b : Char) :
    ∀ (pre pre2 suf suf2 : List Char), b ∉ suf → b ∉ suf2 →
      pre ++ b :: suf = pre2 ++ b :: suf2 → pre2 = pre ∧ suf2 = suf := by
  intro pre
  induction pre with
  | nil =>
    intro pre2 suf suf2 hs hs2 h
    cases pre2 with
    | nil =>
      simp only [List.nil_append, List.cons.injEq, true_and] at h
      exact ⟨rfl, h.symm⟩
    | cons y ys =>
      simp only [List.nil_append, List.cons_append, List.cons.injEq] at h
      exact absurd (by rw [h.2]; simp) hs
  | cons p ps ih =>
    intro pre2 suf suf2 hs hs2 h
    cases pre2 with
    | nil =>
      simp only [List.nil_append, List.cons_append, List.cons.injEq] at h
      exact absurd (by rw [← h.2]; simp) hs2
    | cons y ys =>
      simp only [List.cons_append, List.cons.injEq] at h
      obtain ⟨h1, h2⟩ := ih ys suf suf2 hs hs2 h.2
      exact ⟨by rw [h.1, h1], h2⟩

/-- `BaseName` on a name without a backslash. -/
theorem BaseName_of_not_mem {g : Global} {c : ClassRef} {cls : ZClass}
    (hc : g.classes[c]? = some cls) (h : '\\' ∉ cls.Name.data) :
    BaseName g c = some cls.Name := by
  unfold BaseName LastIndexByte
  simp only [hc]
  rcases lastIndexFrom_spec '\\' cls.Name.data 0 (-1) with ⟨-, hr⟩ | ⟨pre, suf, hx, -, -⟩
  · rw [hr]
    simp
  · exact absurd (by rw [hx]; simp) h

/-- `BaseName` on a name with a backslash: what follows the last one. -/
theorem BaseName_of_split {g : Global} {c : ClassRef} {cls : ZClass}
    (hc : g.classes[c]? = some cls) {pre suf : List Char}
    (hx : cls.Name.data = pre ++ '\\' :: suf) (hs : '\\' ∉ suf) :
    BaseName g c = some ⟨suf⟩ := by
  unfold BaseName LastIndexByte
  simp only [hc]
  rcases lastIndexFrom_spec '\\' cls.Name.data 0 (-1) with ⟨hn, -⟩ | ⟨pre2, suf2, hx2, hs2, hr⟩
  · exact absurd (by rw [hx]; simp) hn
  · -- the two splits are the same split
    have hsame : pre2 = pre ∧ suf2 = suf :=
      split_last_unique '\\' pre pre2 suf suf2 hs hs2 (hx.symm.trans hx2)
    obtain ⟨rfl, rfl⟩ := hsame
    rw [hr]
    have hne : ((0 + pre2.length : Nat) : Int) ≠ -1 := by omega
    rw [if_neg hne]
    have hdrop : (((0 + pre2.length : Nat) : Int) + 1).toNat = pre2.length + 1 := by omega
    rw [hdrop, hx]
    simp

/-! ## Claims -/

/-- C1: for every class `c` and every method name `m` under which `c` declares
an entry `x` before `compile`, after a successful `compile` the entry of `m` in
`c.Methods` is still `x`, whatever the method table of the parent holds under
`m`. -/
theorem compile_keeps_declared_method (ctx : Context) (g g1 : Global) (c : ClassRef)
    (cls : ZClass) (m : ZString) (x : MethodRef)
    (hc : g.classes[c]? = some cls) (hm : cls.Methods.lookup m = some x)
    (h : compile ctx g c = some (g1, none)) :
    ∃ cls1, g1.classes[c]? = some cls1 ∧ cls1.Methods.lookup m = some x := by
  obtain ⟨cls1, cm, ps, hcases, -, -, -, hg1⟩ := compile_success_class hc h
  subst hg1
  refine ⟨{ cls1 with Const := cm }, classes_setClass_self _ hc, ?_⟩
  rcases hcases with ⟨-, rfl⟩ | ⟨-, subc, p0, ms, -, -, hi, rfl⟩
  · exact hm
  · show ms.lookup m = some x
    rw [importMethods_lookup hi m, hm]
    rfl

/-- Witness of C1: `A` declares `f` as entry 0 and its parent `B` declares `f`
as entry 1; after `compile`, `A.Methods["f"]` is entry 0. -/
theorem compile_keeps_declared_method_witness :
    ∃ cls1, (stateAfterCompile exCtx exBound 0).classes[0]? = some cls1 ∧
      cls1.Methods.lookup "f" = some 0 :=
  compile_keeps_declared_method exCtx exBound (stateAfterCompile exCtx exBound 0) 0
    (exClass "A" "B" [("X", .compileDelayed 1), ("Y", .scalar 5)] [0, 1, 2] [("f", 0)])
    "f" 0 (by decide) (by decide) (by decide)

/-- C2: for every inheritance chain `c0 extends c1 extends ... extends cn` whose
classes are registered and compiled parent-first by `Run`, and every method
name `m`: afterwards `c0.Methods[m]` is the entry declared by the first class
of the chain that declares `m` (the same reference), there is no entry when no
class of the chain declares `m`, and `m` is a key of the merged table of `c0`
exactly when it is a declared key of `c0` or a key of the merged table of its
parent. -/
theorem chain_methods_nearest_declaration (ctx : Context) (g g1 : Global) (c0 : ClassRef)
    (rest : List ClassRef) (m : ZString) (hchain : IsChain g (c0 :: rest))
    (hrun : RunAll ctx g (c0 :: rest).reverse = some g1) :
    ∃ cls cls1, g.classes[c0]? = some cls ∧ g1.classes[c0]? = some cls1 ∧
      cls1.Methods.lookup m = firstDeclared g m (c0 :: rest) ∧
      (m ∈ cls1.Methods.keys ↔ m ∈ cls.Methods.keys ∨
        ∃ d p, rest.head? = some d ∧ g1.classes[d]? = some p ∧ m ∈ p.Methods.keys) :=
  (RunAll_chain ctx g m (c0 :: rest) g1 hchain hrun).2.2 c0 rest rfl

/-- Witness of C2: in the chain `A`, `B`, `C`, the method `g` is declared by `B`
only. -/
theorem chain_methods_nearest_declaration_witness :
    ∃ cls cls1, exFresh.classes[0]? = some cls ∧
      (stateAfterRunAll exCtx exFresh [2, 1, 0]).classes[0]? = some cls1 ∧
      cls1.Methods.lookup "g" = firstDeclared exFresh "g" [0, 1, 2] ∧
      ("g" ∈ cls1.Methods.keys ↔ "g" ∈ cls.Methods.keys ∨
        ∃ d p, [1, 2].head? = some d ∧
          (stateAfterRunAll exCtx exFresh [2, 1, 0]).classes[d]? = some p ∧
          "g" ∈ p.Methods.keys) :=
  chain_methods_nearest_declaration exCtx exFresh (stateAfterRunAll exCtx exFresh [2, 1, 0])
    0 [1, 2] "g"
    ⟨⟨_, _, rfl, rfl, by decide, rfl⟩, ⟨_, _, rfl, rfl, by decide, rfl⟩, rfl⟩
    (by decide)

/-- C3, the code at the failing input: in the chain `A extends B extends C`,
registered and compiled parent-first, `C` is in the ancestor set of `B`, the
parent of `A`, but `A.InstanceOf(C)` is false. -/
theorem InstanceOf_grandparent_false :
    IsChain exFresh [0, 1, 2] ∧
      (RunAll exCtx exFresh [2, 1, 0]).isSome = true ∧
      InstanceOf (stateAfterRunAll exCtx exFresh [2, 1, 0]) 1 2 = some true ∧
      InstanceOf (stateAfterRunAll exCtx exFresh [2, 1, 0]) 0 2 = some false :=
  ⟨⟨⟨_, _, rfl, rfl, by decide, rfl⟩, ⟨_, _, rfl, rfl, by decide, rfl⟩, rfl⟩,
    by decide, by decide, by decide⟩

/-- C4, the code at the failing input: `Run` on a class `S` that names itself
as its parent returns the nil error and leaves `S.Extends` pointing to `S`. -/
theorem Run_self_parent_succeeds :
    (Run exCtx exSelf 0).map Prod.snd = some none ∧
      ((stateAfterRun exCtx exSelf 0).classes[0]?).map ZClass.Extends = some (some 0) ∧
      ((stateAfterRun exCtx exSelf 0).classes[0]?).map ZClass.ExtendsStr = some "S" ∧
      ((stateAfterRun exCtx exSelf 0).classes[0]?).map ZClass.Name = some "S" :=
  ⟨by decide, by decide, by decide, by decide⟩

/-- C5, the code at the failing input: `K` lists the interface name `I`, which
the registry resolves to class 1; `compile` succeeds, `K.Implements` stays
empty and `K.InstanceOf(I)` is false. -/
theorem compile_leaves_interface_unresolved :
    (exIface.classes[0]?).map ZClass.ImplementsStr = some ["I"] ∧
      GetClass exIface "I" = .ok 1 ∧
      (compile exCtx exIface 0).map Prod.snd = some none ∧
      ((stateAfterCompile exCtx exIface 0).classes[0]?).map ZClass.Implements = some [] ∧
      InstanceOf (stateAfterCompile exCtx exIface 0) 0 1 = some false :=
  ⟨by decide, rfl, by decide, by decide, by decide⟩

/-- C6: after a successful `compile` of any class `c` (whose constant table
holds each key once, under an evaluator that yields values), no value of
`c.Const` and no `Default` of a property in `c.Props` is a delayed expression:
each entry that was a delayed expression holds, under the same key or at the
same property, the value its evaluation returned, and each entry that was a
value is unchanged. -/
theorem compile_forces_delayed (ctx : Context) (g g1 : Global) (c : ClassRef) (cls : ZClass)
    (hc : g.classes[c]? = some cls) (hwf : cls.Const.WF) (hctx : ctx.Concrete)
    (h : compile ctx g c = some (g1, none)) :
    ∃ cls1, g1.classes[c]? = some cls1 ∧
      cls1.Const.keys = cls.Const.keys ∧ cls1.Props = cls.Props ∧
      (∀ k v, (k, v) ∈ cls1.Const.entries → v.asDelayed = none) ∧
      (∀ k e, cls.Const.lookup k = some (.compileDelayed e) →
        ∃ z, ctx.Run e = .ok z ∧ cls1.Const.lookup k = some z) ∧
      (∀ k v, cls.Const.lookup k = some v → v.asDelayed = none →
        cls1.Const.lookup k = some v) ∧
      (∀ p, p ∈ cls.Props → ∃ prop prop1, g.props[p]? = some prop ∧
        g1.props[p]? = some prop1 ∧ prop1.VarName = prop.VarName ∧
        prop1.Modifiers = prop.Modifiers ∧ prop1.Default.asDelayed = none ∧
        (∀ e, prop.Default = .compileDelayed e →
          ∃ z, ctx.Run e = .ok z ∧ prop1.Default = z) ∧
        (prop.Default.asDelayed = none → prop1.Default = prop.Default)) := by
  obtain ⟨cls1, cm, ps, hcases, hf, hq, -, hg1⟩ := compile_success_class hc h
  subst hg1
  have hfin : ({ g.setClass c { cls1 with Const := cm } with props := ps } :
      Global).classes[c]? = some { cls1 with Const := cm } := classes_setClass_self _ hc
  have hkeys : cm.keys = cls.Const.keys :=
    forceConsts_keys ctx _ _ _ _ (fun k hk => hk) hf
  obtain ⟨hA, hB⟩ := forceConsts_lookup ctx _ _ _ hwf hf
  obtain ⟨hV, hS⟩ := forceProps_spec ctx hctx _ _ _ hq
  have hprops : cls1.Props = cls.Props := by
    rcases hcases with ⟨-, rfl⟩ | ⟨-, subc, p0, ms, -, -, -, rfl⟩ <;> rfl
  refine ⟨_, hfin, hkeys, hprops, ?_, ?_, ?_, ?_⟩
  · exact forceConsts_no_delayed ctx hctx hwf hf
  · intro k e hk
    exact hB k e hk
  · intro k v hk hv
    have := hA k (fun e he => by
      have h2 : cls.Const.lookup k = some (.compileDelayed e) := he
      rw [hk] at h2
      obtain rfl := Option.some.inj h2
      simp [Val.asDelayed] at hv)
    show cm.lookup k = some v
    rw [this, hk]
  · intro p hp
    have hplt : p < g.props.length := hV p hp
    have hprop : g.props[p]? = some (g.props[p]) := List.getElem?_eq_getElem hplt
    obtain ⟨prop1, h1, h2, h3, h4, h5⟩ := hS p _ hprop
    obtain ⟨h6, h7⟩ := h5 hp
    exact ⟨_, prop1, hprop, h1, h2, h3, h6, h7, h4⟩

/-- Witness of C6: class `A` holds the delayed constant `X` and the delayed
default of the property `count`. -/
theorem compile_forces_delayed_witness :
    ∃ cls1, (stateAfterCompile exCtx exBound 0).classes[0]? = some cls1 ∧
      cls1.Const.keys = ["X", "Y"] ∧ cls1.Props = [0, 1, 2] ∧
      (∀ k v, (k, v) ∈ cls1.Const.entries → v.asDelayed = none) ∧
      (∀ k e, (GoMap.make [("X", Val.compileDelayed 1), ("Y", Val.scalar 5)]).lookup k =
          some (.compileDelayed e) →
        ∃ z, exCtx.Run e = .ok z ∧ cls1.Const.lookup k = some z) ∧
      (∀ k v, (GoMap.make [("X", Val.compileDelayed 1), ("Y", Val.scalar 5)]).lookup k =
          some v → v.asDelayed = none → cls1.Const.lookup k = some v) ∧
      (∀ p, p ∈ [0, 1, 2] → ∃ prop prop1, exBound.props[p]? = some prop ∧
        (stateAfterCompile exCtx exBound 0).props[p]? = some prop1 ∧
        prop1.VarName = prop.VarName ∧
        prop1.Modifiers = prop.Modifiers ∧ prop1.Default.asDelayed = none ∧
        (∀ e, prop.Default = .compileDelayed e →
          ∃ z, exCtx.Run e = .ok z ∧ prop1.Default = z) ∧
        (prop.Default.asDelayed = none → prop1.Default = prop.Default)) :=
  compile_forces_delayed exCtx exBound (stateAfterCompile exCtx exBound 0) 0
    (exClass "A" "B" [("X", .compileDelayed 1), ("Y", .scalar 5)] [0, 1, 2] [("f", 0)])
    (by decide) (by decide)
    (fun e z hz => by
      have : z = .scalar (Int.ofNat e) := (Except.ok.inj hz).symm
      rw [this]; rfl)
    (by decide)

/-- C7, as stated, fails: `compile` of `A` returns the error of the delayed
default of its property `count`, and leaves `A.Methods` with the method `g` of
its parent, `A.Extends` pointing to the parent and the constant `X`
evaluated. -/
theorem compile_error_counterexample :
    (compile exCtxFailing exBound 0).map Prod.snd = some (some (.eval 7)) ∧
      (exBound.classes[0]?).map ZClass.Methods = some (.make [("f", 0)]) ∧
      ((stateAfterCompile exCtxFailing exBound 0).classes[0]?).map ZClass.Methods =
        some (.make [("f", 0), ("g", 2)]) ∧
      (exBound.classes[0]?).map ZClass.Extends = some none ∧
      ((stateAfterCompile exCtxFailing exBound 0).classes[0]?).map ZClass.Extends =
        some (some 1) ∧
      (exBound.classes[0]?).map ZClass.Const =
        some (.make [("X", .compileDelayed 1), ("Y", .scalar 5)]) ∧
      ((stateAfterCompile exCtxFailing exBound 0).classes[0]?).map ZClass.Const =
        some (.make [("X", .scalar 1), ("Y", .scalar 5)]) :=
  ⟨by decide, by decide, by decide, by decide, by decide, by decide, by decide⟩

/-- C7, amended: if `compile` returns an error for a class `c` because the
lookup of its parent failed, then the error is the one of the lookup, and
`c.Methods`, `c.Extends`, `c.Const` and the properties with their defaults are
exactly what they were before the call. -/
theorem compile_lookup_failure_keeps_state (ctx : Context) (g g1 : Global) (c : ClassRef)
    (cls : ZClass) (err e : Err) (hc : g.classes[c]? = some cls)
    (hne : cls.ExtendsStr ≠ "") (hget : GetClass g cls.ExtendsStr = .error err)
    (h : compile ctx g c = some (g1, some e)) :
    e = err ∧ g1.props = g.props ∧
      ∃ cls1, g1.classes[c]? = some cls1 ∧ cls1.Methods = cls.Methods ∧
        cls1.Extends = cls.Extends ∧ cls1.Const = cls.Const ∧ cls1.Props = cls.Props := by
  rw [compile_lookup_error ctx hc hne hget] at h
  simp only [Option.some.injEq, Prod.mk.injEq] at h
  obtain ⟨h1, h2⟩ := h
  subst h1
  exact ⟨h2.symm, rfl, _, classes_setClass_self _ hc, rfl, rfl, rfl, rfl⟩

/-- Witness of C7, amended: `A` names the parent `Z`, which is not registered. -/
theorem compile_lookup_failure_keeps_state_witness :
    Err.ClassNotFound = Err.ClassNotFound ∧
      (stateAfterCompile exCtx exUnbound 0).props = exUnbound.props ∧
      ∃ cls1, (stateAfterCompile exCtx exUnbound 0).classes[0]? = some cls1 ∧
        cls1.Methods = .make [("f", 0)] ∧ cls1.Extends = none ∧
        cls1.Const = .make [("X", .compileDelayed 1), ("Y", .scalar 5)] ∧
        cls1.Props = [0, 1, 2] :=
  compile_lookup_failure_keeps_state exCtx exUnbound (stateAfterCompile exCtx exUnbound 0) 0
    (exClass "A" "Z" [("X", .compileDelayed 1), ("Y", .scalar 5)] [0, 1, 2] [("f", 0)])
    .ClassNotFound .ClassNotFound (by decide) (by decide) rfl (by decide)

/-- C8, as stated, fails: `compile` of `A` succeeds, then `compile` of its
parent `B` succeeds and leaves the registry and the descriptor of `A` as they
were; a second `compile` of `A` against that unchanged registry returns the
nil error and changes `A.Methods`, which gains the method `h` that `B` has
imported in between. -/
theorem compile_twice_counterexample :
    (compile exCtx exBound 0).map Prod.snd = some none ∧
      (compile exCtx (stateAfterCompile exCtx exBound 0) 1).map Prod.snd = some none ∧
      (stateAfterCompile exCtx (stateAfterCompile exCtx exBound 0) 1).registry =
        (stateAfterCompile exCtx exBound 0).registry ∧
      (stateAfterCompile exCtx (stateAfterCompile exCtx exBound 0) 1).classes[0]? =
        (stateAfterCompile exCtx exBound 0).classes[0]? ∧
      ((stateAfterCompile exCtx exBound 0).classes[0]?).map ZClass.Methods =
        some (.make [("f", 0), ("g", 2)]) ∧
      (compile exCtx (stateAfterCompile exCtx (stateAfterCompile exCtx exBound 0) 1) 0).map
        Prod.snd = some none ∧
      ((stateAfterCompile exCtx
          (stateAfterCompile exCtx (stateAfterCompile exCtx exBound 0) 1) 0).classes[0]?).map
        ZClass.Methods = some (.make [("f", 0), ("g", 2), ("h", 3)]) :=
  ⟨by decide, by decide, by decide, by decide, by decide, by decide, by decide⟩

/-- C8, amended: for every class `c` on which `compile` has succeeded (its
constant table holding each key once, under an evaluator that yields values),
take any later state in which the registry, the descriptor of `c`, the
properties of `c`, the method entries and the method table of the resolved
parent of `c` are what that `compile` left.  There a second `compile`, whose
method bodies compile as in the first call, returns the nil error and leaves
the whole state as it is, whatever evaluator it is given: it evaluates no
delayed expression, and `c.Methods`, `c.Extends`, `c.Const`, the property
defaults and the ancestor set are those the first `compile` produced. -/
theorem compile_twice (ctx ctx2 : Context) (g g1 g2 : Global) (c : ClassRef) (cls : ZClass)
    (hc : g.classes[c]? = some cls) (hwf : cls.Const.WF) (hctx : ctx.Concrete)
    (hbodies : ctx2.compile = ctx.compile)
    (h : compile ctx g c = some (g1, none))
    (hreg : g2.registry = g1.registry)
    (hcls : g2.classes[c]? = g1.classes[c]?)
    (hprops2 : ∀ q, q ∈ cls.Props → g2.props[q]? = g1.props[q]?)
    (hmeth2 : g2.methods = g1.methods)
    (hpar : ∀ p, cls.ExtendsStr ≠ "" → GetClass g cls.ExtendsStr = .ok p →
      (g2.classes[p]?).map ZClass.Methods = (g1.classes[p]?).map ZClass.Methods) :
    compile ctx2 g2 c = some (g2, none) := by
  obtain ⟨cls1, cm, ps, hcases, hf, hq, hb, hg1⟩ := compile_success_class hc h
  have hfin : g1.classes[c]? = some { cls1 with Const := cm } := by
    rw [hg1]; exact classes_setClass_self _ hc
  have hfin2 : g2.classes[c]? = some { cls1 with Const := cm } := hcls.trans hfin
  have hprops1 : g1.props = ps := by rw [hg1]
  have hmeth1 : g1.methods = g.methods := by rw [hg1]; rfl
  have hprops : cls1.Props = cls.Props := by
    rcases hcases with ⟨-, rfl⟩ | ⟨-, subc, p0, ms, -, -, -, rfl⟩ <;> rfl
  have hother : ∀ x, x ≠ c → g1.classes[x]? = g.classes[x]? := by
    intro x hx
    rw [hg1]
    exact classes_setClass_ne g _ hx
  have hget2 : ∀ n, GetClass g2 n = GetClass g n := by
    intro n
    have h1 : g1.registry = g.registry := by rw [hg1]; rfl
    unfold GetClass
    rw [hreg, h1]
  -- the block that resolves the parent assigns what is there already
  have hre : resolveExtends g2 c = some (g2.setClass c { cls1 with Const := cm }, none) := by
    rw [resolveExtends_eq hfin2]
    rcases hcases with ⟨he, rfl⟩ | ⟨he, subc, p0, ms, hG, hp, hi, rfl⟩
    · simp only [he, if_true]
    · simp only [he, if_false]
      have hG2 : GetClass g2 cls.ExtendsStr = .ok subc := by
        rw [hget2]; exact hG
      simp only [hG2]
      have hpar1 : ∃ p1, g1.classes[subc]? = some p1 ∧
          ∀ k, k ∈ p1.Methods.entries.map Prod.fst → ms.found k = true := by
        by_cases hs : subc = c
        · subst hs
          refine ⟨_, hfin, ?_⟩
          intro k hk
          exact (GoMap.found_iff_mem_keys ms k).mpr hk
        · refine ⟨p0, ?_, ?_⟩
          · rw [hother subc hs]; exact hp
          · intro k hk
            unfold GoMap.found
            rw [importMethods_lookup hi k]
            have : (findEntry p0.Methods.entries k).isSome = true :=
              (findEntry_isSome_iff _ k).mpr hk
            cases cls.Methods.lookup k with
            | some x => rfl
            | none => simpa using this
      obtain ⟨p1, hp1, hall⟩ := hpar1
      have hpar2 : ∃ p2, g2.classes[subc]? = some p2 ∧ p2.Methods = p1.Methods := by
        have hm := hpar subc he hG
        rw [hp1] at hm
        cases hp2 : g2.classes[subc]? with
        | none =>
          rw [hp2] at hm
          exact absurd hm (by simp)
        | some p2 =>
          rw [hp2] at hm
          exact ⟨p2, rfl, Option.some.inj hm⟩
      obtain ⟨p2, hp2, hpm⟩ := hpar2
      simp only [hp2]
      have himp : importMethods p2.Methods.entries ms = some ms := by
        rw [hpm]
        exact importMethods_all_found hall
      simp only [himp]
  have hnd : ∀ k v, (k, v) ∈ cm.entries → v.asDelayed = none :=
    forceConsts_no_delayed ctx hctx hwf hf
  obtain ⟨hV, hS⟩ := forceProps_spec ctx hctx _ _ _ hq
  have hpnd : ∀ p, p ∈ cls1.Props →
      ∃ prop, g2.props[p]? = some prop ∧ prop.Default.asDelayed = none := by
    intro p hp
    rw [hprops] at hp
    have hplt : p < g.props.length := hV p hp
    obtain ⟨prop1, h1, -, -, -, h5⟩ := hS p _ (List.getElem?_eq_getElem hplt)
    exact ⟨prop1, by rw [hprops2 p hp, hprops1]; exact h1, (h5 hp).1⟩
  rw [compile_of_resolve ctx2 hfin2 hre]
  have e1 : forceConsts ctx2 cm.entries cm = some (cm, none) := forceConsts_noop ctx2 cm _ hnd
  have e2 : forceProps ctx2 cls1.Props g2.props = some (g2.props, none) :=
    forceProps_noop ctx2 _ _ hpnd
  have e3 : compileBodies ctx2 g2.methods cls1.Methods.entries = some none := by
    rw [compileBodies_congr hbodies, hmeth2, hmeth1]; exact hb
  simp only [e1, e2, e3]
  have : g2.setClass c { cls1 with Const := cm } = g2 := setClass_same hfin2
  rw [this]

/-- Witness of C8, amended: `compile` of `A`, then `compile` of `C`, which is
not the parent of `A`, then a second `compile` of `A` with an evaluator that
would fail on every delayed expression. -/
theorem compile_twice_witness :
    compile { Run := fun _ => .error 0, compile := exCtx.compile }
      (stateAfterCompile exCtx (stateAfterCompile exCtx exBound 0) 2) 0 =
      some (stateAfterCompile exCtx (stateAfterCompile exCtx exBound 0) 2, none) :=
  compile_twice exCtx { Run := fun _ => .error 0, compile := exCtx.compile } exBound
    (stateAfterCompile exCtx exBound 0)
    (stateAfterCompile exCtx (stateAfterCompile exCtx exBound 0) 2) 0
    (exClass "A" "B" [("X", .compileDelayed 1), ("Y", .scalar 5)] [0, 1, 2] [("f", 0)])
    (by decide) (by decide)
    (fun e z hz => by
      have : z = .scalar (Int.ofNat e) := (Except.ok.inj hz).symm
      rw [this]; rfl)
    rfl (by decide) (by decide) (by decide)
    (fun q _ => by
      have : (stateAfterCompile exCtx (stateAfterCompile exCtx exBound 0) 2).props =
          (stateAfterCompile exCtx exBound 0).props := by decide
      rw [this])
    (by decide)
    (fun p _ hp => by
      have : p = 1 := (Except.ok.inj hp).symm
      subst this
      decide)

/-- C9: for every class `c` whose static storage does not exist yet, the table
the first `getStaticProps` returns has one entry per distinct name of a
property of `c.Props` flagged static, in the order of declaration, and no
entry under another name; the entry of a name holds the `Default` of the static
property declared (last) under that name when it has one, and the null value of
the runtime when it has none. -/
theorem getStaticProps_first (g g1 : Global) (c : ClassRef) (cls : ZClass) (t : TableRef)
    (err : Option Err) (hc : g.classes[c]? = some cls) (hnil : cls.StaticProps = none)
    (h : getStaticProps g c = some (g1, t, err)) :
    ∃ tbl : ZHashTable, g1.tables[t]? = some tbl ∧
      tbl.map Prod.fst = (((staticDecls g cls).map ZClassProp.VarName).reverse.dedup).reverse ∧
      (tbl.map Prod.fst).Nodup ∧
      (∀ n, n ∈ tbl.map Prod.fst ↔ ∃ prop, prop ∈ staticDecls g cls ∧ prop.VarName = n) ∧
      (∀ n, tbl.GetString n =
        findEntry ((staticDecls g cls).reverse.map (fun prop => (prop.VarName, initialValue prop)))
          n) := by
  unfold getStaticProps at h
  simp only [hc, hnil] at h
  cases hs : seedStatic g.props cls.Props NewHashTable with
  | none =>
    rw [hs] at h
    exact absurd h (by simp)
  | some tbl =>
    rw [hs] at h
    simp only [Option.some.injEq, Prod.mk.injEq] at h
    obtain ⟨hg1, ht, -⟩ := h
    subst hg1
    subst ht
    have htbl := seedStatic_eq_foldl g cls.Props NewHashTable tbl hs
    rw [foldl_setEntry_map ZClassProp.VarName initialValue] at htbl
    obtain ⟨hK, hF⟩ := foldl_setEntry_spec
      (((propsOf g cls.Props).filter (fun prop => prop.Modifiers.IsStatic)).map
        (fun a => (a.VarName, initialValue a)))
    have hkeys : tbl.map Prod.fst =
        (((staticDecls g cls).map ZClassProp.VarName).reverse.dedup).reverse := by
      rw [htbl]
      unfold NewHashTable
      rw [hK, List.map_map]
      rfl
    refine ⟨tbl, ?_, hkeys, ?_, ?_, ?_⟩
    · simp [List.getElem?_set, List.getElem?_append_right]
    · rw [hkeys]
      exact List.nodup_reverse.mpr (List.nodup_dedup _)
    · intro n
      rw [hkeys]
      simp only [List.mem_reverse, List.mem_dedup, List.mem_map]
    · intro n
      show findEntry tbl n = _
      rw [htbl]
      unfold NewHashTable
      rw [hF, List.map_reverse]
      rfl

/-- Witness of C9: class `A` declares the static properties `count` (with a
default) and `total` (without one) and the non-static property `label`. -/
theorem getStaticProps_first_witness :
    ∃ tbl : ZHashTable, (exBound.tables ++ [[("count", Val.ZVal (.compileDelayed 2)),
        ("total", Val.ZVal .ZNULL)]])[0]? = some tbl ∧
      tbl.map Prod.fst = (((staticDecls exBound
        (exClass "A" "B" [("X", .compileDelayed 1), ("Y", .scalar 5)] [0, 1, 2]
          [("f", 0)])).map ZClassProp.VarName).reverse.dedup).reverse ∧
      (tbl.map Prod.fst).Nodup ∧
      (∀ n, n ∈ tbl.map Prod.fst ↔ ∃ prop, prop ∈ staticDecls exBound
        (exClass "A" "B" [("X", .compileDelayed 1), ("Y", .scalar 5)] [0, 1, 2]
          [("f", 0)]) ∧ prop.VarName = n) ∧
      (∀ n, tbl.GetString n =
        findEntry ((staticDecls exBound
          (exClass "A" "B" [("X", .compileDelayed 1), ("Y", .scalar 5)] [0, 1, 2]
            [("f", 0)])).reverse.map (fun prop => (prop.VarName, initialValue prop))) n) :=
  getStaticProps_first exBound
    { exBound with
      classes := exBound.classes.set 0
        { exClass "A" "B" [("X", .compileDelayed 1), ("Y", .scalar 5)] [0, 1, 2] [("f", 0)] with
          StaticProps := some 0 },
      tables := [[("count", Val.ZVal (.compileDelayed 2)), ("total", Val.ZVal .ZNULL)]] }
    0 (exClass "A" "B" [("X", .compileDelayed 1), ("Y", .scalar 5)] [0, 1, 2] [("f", 0)])
    0 none (by decide) (by decide) (by decide)

/-- C10: `getStaticProps` never returns an error; the call that creates the
table stores it in `c.StaticProps`; and in every state in which
`c.StaticProps` is that table, whatever the state holds otherwise (values
written into the table, changed properties or defaults), the call returns the
same table and changes nothing. -/
theorem getStaticProps_stable (g g1 : Global) (c : ClassRef) (t : TableRef)
    (err : Option Err) (h : getStaticProps g c = some (g1, t, err)) :
    err = none ∧ (∃ cls1, g1.classes[c]? = some cls1 ∧ cls1.StaticProps = some t) ∧
      ∀ g2 cls2, g2.classes[c]? = some cls2 → cls2.StaticProps = some t →
        getStaticProps g2 c = some (g2, t, none) := by
  refine ⟨?_, ?_, ?_⟩
  · unfold getStaticProps at h
    cases hc : g.classes[c]? with
    | none => simp [hc] at h
    | some cls =>
      simp only [hc] at h
      cases hs : cls.StaticProps with
      | some t0 =>
        simp only [hs, Option.some.injEq, Prod.mk.injEq] at h
        exact h.2.2.symm
      | none =>
        simp only [hs] at h
        cases hseed : seedStatic g.props cls.Props NewHashTable with
        | none => rw [hseed] at h; exact absurd h (by simp)
        | some tbl =>
          rw [hseed] at h
          simp only [Option.some.injEq, Prod.mk.injEq] at h
          exact h.2.2.symm
  · unfold getStaticProps at h
    cases hc : g.classes[c]? with
    | none => simp [hc] at h
    | some cls =>
      simp only [hc] at h
      cases hs : cls.StaticProps with
      | some t0 =>
        simp only [hs, Option.some.injEq, Prod.mk.injEq] at h
        obtain ⟨h1, h2, -⟩ := h
        subst h1
        subst h2
        exact ⟨cls, hc, hs⟩
      | none =>
        simp only [hs] at h
        cases hseed : seedStatic g.props cls.Props NewHashTable with
        | none => rw [hseed] at h; exact absurd h (by simp)
        | some tbl =>
          rw [hseed] at h
          simp only [Option.some.injEq, Prod.mk.injEq] at h
          obtain ⟨h1, h2, -⟩ := h
          subst h1
          subst h2
          have hlt : c < g.classes.length := (List.getElem?_eq_some.mp hc).1
          refine ⟨{ cls with StaticProps := some g.tables.length }, ?_, rfl⟩
          simp [List.getElem?_set, hlt]
  · intro g2 cls2 hc2 hs2
    unfold getStaticProps
    simp only [hc2, hs2]

/-- Witness of C10: the first call on class `A` creates table 0. -/
theorem getStaticProps_stable_witness :
    (none : Option Err) = none ∧
      (∃ cls1, ({ exBound with
          classes := exBound.classes.set 0
            { exClass "A" "B" [("X", .compileDelayed 1), ("Y", .scalar 5)] [0, 1, 2]
                [("f", 0)] with StaticProps := some 0 },
          tables := [[("count", Val.ZVal (.compileDelayed 2)), ("total", Val.ZVal .ZNULL)]] } :
            Global).classes[0]? = some cls1 ∧ cls1.StaticProps = some 0) ∧
      ∀ g2 cls2, g2.classes[0]? = some cls2 → cls2.StaticProps = some 0 →
        getStaticProps g2 0 = some (g2, 0, none) :=
  getStaticProps_stable exBound
    { exBound with
      classes := exBound.classes.set 0
        { exClass "A" "B" [("X", .compileDelayed 1), ("Y", .scalar 5)] [0, 1, 2] [("f", 0)] with
          StaticProps := some 0 },
      tables := [[("count", Val.ZVal (.compileDelayed 2)), ("total", Val.ZVal .ZNULL)]] }
    0 0 none (by decide)

/-- C11: for every class `c` with a non-empty declared parent name that the
registry cannot resolve, `compile` fails with exactly the error the lookup
returned, which is `ClassNotFound`, and in the state it leaves `c.Extends` is
what it was and `c.Methods` has gained no method. -/
theorem compile_parent_not_found (ctx : Context) (g : Global) (c : ClassRef) (cls : ZClass)
    (err : Err) (hc : g.classes[c]? = some cls) (hne : cls.ExtendsStr ≠ "")
    (hget : GetClass g cls.ExtendsStr = .error err) :
    err = .ClassNotFound ∧
      ∃ g1 cls1, compile ctx g c = some (g1, some err) ∧ g1.classes[c]? = some cls1 ∧
        cls1.Extends = cls.Extends ∧ cls1.Methods = cls.Methods := by
  refine ⟨?_, _, _, compile_lookup_error ctx hc hne hget, classes_setClass_self _ hc, rfl, rfl⟩
  unfold GetClass at hget
  cases hf : findEntry g.registry cls.ExtendsStr with
  | none =>
    simp only [hf] at hget
    exact (Except.error.inj hget).symm
  | some d => simp [hf] at hget

/-- Witness of C11: `A` names the parent `Z`, which is not registered. -/
theorem compile_parent_not_found_witness :
    Err.ClassNotFound = .ClassNotFound ∧
      ∃ g1 cls1, compile exCtx exUnbound 0 = some (g1, some .ClassNotFound) ∧
        g1.classes[0]? = some cls1 ∧ cls1.Extends = none ∧
        cls1.Methods = .make [("f", 0)] :=
  compile_parent_not_found exCtx exUnbound 0
    (exClass "A" "Z" [("X", .compileDelayed 1), ("Y", .scalar 5)] [0, 1, 2] [("f", 0)])
    .ClassNotFound (by decide) (by decide) rfl

/-- C12, as stated, fails: `compile` of `A` fails because its parent `Z` is not
registered; once the registry has gained `Z`, a later `compile` of `A` looks
the parent up again and succeeds. -/
theorem compile_after_failure_counterexample :
    (compile exCtx exUnbound 0).map Prod.snd = some (some .ClassNotFound) ∧
      exGained.classes = (stateAfterCompile exCtx exUnbound 0).classes ∧
      (compile exCtx exGained 0).map Prod.snd = some none ∧
      ((stateAfterCompile exCtx exGained 0).classes[0]?).map ZClass.Extends = some (some 2) :=
  ⟨by decide, by decide, by decide, by decide⟩

/-- C12, amended: for every class `c` on which `compile` returned the error of
a failed parent lookup, a later `compile` of `c` in the state that call left
(the registry unchanged) returns that error again and leaves the state as it
is. -/
theorem compile_lookup_failure_repeats (ctx ctx2 : Context) (g g1 : Global) (c : ClassRef)
    (cls : ZClass) (err e : Err) (hc : g.classes[c]? = some cls)
    (hne : cls.ExtendsStr ≠ "") (hget : GetClass g cls.ExtendsStr = .error err)
    (h : compile ctx g c = some (g1, some e)) :
    compile ctx2 g1 c = some (g1, some e) := by
  rw [compile_lookup_error ctx hc hne hget] at h
  simp only [Option.some.injEq, Prod.mk.injEq] at h
  obtain ⟨h1, h2⟩ := h
  subst h1
  subst h2
  have hc1 : (g.setClass c { cls with parents := .make [] }).classes[c]? =
      some { cls with parents := .make [] } := classes_setClass_self _ hc
  have := compile_lookup_error ctx2 hc1 hne hget
  rw [this, setClass_setClass]

/-- Witness of C12, amended: the second `compile` of `A` while `Z` is still
not registered. -/
theorem compile_lookup_failure_repeats_witness :
    compile exCtxFailing (stateAfterCompile exCtx exUnbound 0) 0 =
      some (stateAfterCompile exCtx exUnbound 0, some .ClassNotFound) :=
  compile_lookup_failure_repeats exCtx exCtxFailing exUnbound
    (stateAfterCompile exCtx exUnbound 0) 0
    (exClass "A" "Z" [("X", .compileDelayed 1), ("Y", .scalar 5)] [0, 1, 2] [("f", 0)])
    .ClassNotFound .ClassNotFound (by decide) (by decide) rfl (by decide)

/-- C13: for every class `c`, if registering `c.Name` fails, which it does when
the name is already bound, `Run` returns that error and leaves the whole state,
every field of `c` included, as it was, without compiling `c`; if the
registration succeeds, the result of `Run` is the result of `compile` on the
state with the name bound. -/
theorem Run_registration (ctx : Context) (g : Global) (c : ClassRef) (cls : ZClass)
    (hc : g.classes[c]? = some cls) :
    (∀ err, RegisterClass g cls.Name c = .error err → Run ctx g c = some (g, some err)) ∧
      ((findEntry g.registry cls.Name).isSome = true →
        Run ctx g c = some (g, some .DuplicateClass)) ∧
      (∀ g1, RegisterClass g cls.Name c = .ok g1 → Run ctx g c = compile ctx g1 c) := by
  refine ⟨?_, ?_, ?_⟩
  · intro err herr
    unfold Run
    simp only [hc, herr]
  · intro hb
    unfold Run
    simp only [hc, RegisterClass, hb, if_true]
  · intro g1 hok
    unfold Run
    simp only [hc, hok]

/-- Witness of C13: the name `A` is bound already. -/
theorem Run_registration_witness :
    (∀ err, RegisterClass exBound "A" 0 = .error err →
        Run exCtx exBound 0 = some (exBound, some err)) ∧
      ((findEntry exBound.registry "A").isSome = true →
        Run exCtx exBound 0 = some (exBound, some .DuplicateClass)) ∧
      (∀ g1, RegisterClass exBound "A" 0 = .ok g1 →
        Run exCtx exBound 0 = compile exCtx g1 0) :=
  Run_registration exCtx exBound 0
    (exClass "A" "B" [("X", .compileDelayed 1), ("Y", .scalar 5)] [0, 1, 2] [("f", 0)])
    (by decide)

/-- C14, as stated, fails: `D` declares no method and inherits `__construct`
from its parent `P`; after a successful `compile` the merged method table of
`D` holds the inherited entry and `D.Constructor` is still nil. -/
theorem compile_constructor_counterexample :
    (compile exCtx exCtor 0).map Prod.snd = some none ∧
      ((stateAfterCompile exCtx exCtor 0).classes[0]?).map
        (fun cls => cls.Methods.lookup "__construct") = some (some 0) ∧
      ((stateAfterCompile exCtx exCtor 0).classes[0]?).map ZClass.Constructor = some none :=
  ⟨by decide, by decide, by decide⟩

/-- C14, amended: `compile` does not assign `c.Constructor`: after a successful
`compile` of any class `c`, `c.Constructor` is what it was before the call. -/
theorem compile_keeps_Constructor (ctx : Context) (g g1 : Global) (c : ClassRef)
    (cls : ZClass) (hc : g.classes[c]? = some cls)
    (h : compile ctx g c = some (g1, none)) :
    ∃ cls1, g1.classes[c]? = some cls1 ∧ cls1.Constructor = cls.Constructor := by
  obtain ⟨cls0, cls1, hc0, hcl, -, -, -, -, -, -, -, -, -, hK⟩ := compile_frame h
  rw [hc] at hc0
  obtain rfl := Option.some.inj hc0
  refine ⟨cls1, ?_, hK⟩
  rw [hcl]
  have hlt : c < g.classes.length := (List.getElem?_eq_some.mp hc).1
  simp [List.getElem?_set, hlt]

/-- Witness of C14, amended, on the class `D` that inherits `__construct`. -/
theorem compile_keeps_Constructor_witness :
    ∃ cls1, (stateAfterCompile exCtx exCtor 0).classes[0]? = some cls1 ∧
      cls1.Constructor = none :=
  compile_keeps_Constructor exCtx exCtor (stateAfterCompile exCtx exCtor 0) 0
    (exClass "D" "P" [] [] []) (by decide) (by decide)

/-- C15, as stated, fails: `A` has never been compiled, its ancestor map is
nil, and `A.InstanceOf(B)` answers false. -/
theorem InstanceOf_uncompiled_counterexample :
    (exFresh.classes[0]?).map ZClass.parents = some .nil ∧
      InstanceOf exFresh 0 1 = some false :=
  ⟨by decide, by decide⟩

/-- C15, amended: `InstanceOf` called on a descriptor that has never been
compiled (its ancestor map is nil) answers false for every candidate; it
returns a boolean only, so it neither fails nor changes the descriptor. -/
theorem InstanceOf_uncompiled (g : Global) (c x : ClassRef) (cls : ZClass)
    (hc : g.classes[c]? = some cls) (hnil : cls.parents = .nil) :
    InstanceOf g c x = some false := by
  unfold InstanceOf
  simp only [hc, hnil]
  rfl

/-- Witness of C15, amended, on the class `A` before any `compile`. -/
theorem InstanceOf_uncompiled_witness : InstanceOf exFresh 0 2 = some false :=
  InstanceOf_uncompiled exFresh 0 2
    (exClass "A" "B" [("X", .compileDelayed 1), ("Y", .scalar 5)] [0, 1, 2] [("f", 0)])
    (by decide) rfl

/-- C16: for every class, `BaseName` returns a name without a backslash: the
class name itself when it holds no backslash, and otherwise the part of the
class name that follows its last backslash; `BaseName` applied to a class
named by that result returns the result unchanged. -/
theorem BaseName_strips_namespace (g : Global) (c : ClassRef) (cls : ZClass)
    (hc : g.classes[c]? = some cls) :
    ∃ b : ZString, BaseName g c = some b ∧ '\\' ∉ b.data ∧
      ('\\' ∉ cls.Name.data → b = cls.Name) ∧
      ('\\' ∈ cls.Name.data → ∃ ns : ZString, cls.Name = ns ++ "\\" ++ b) ∧
      (∀ g2 c2 cls2, g2.classes[c2]? = some cls2 → cls2.Name = b →
        BaseName g2 c2 = some b) := by
  rcases lastIndexFrom_spec '\\' cls.Name.data 0 (-1) with ⟨hn, -⟩ | ⟨pre, suf, hx, hs, -⟩
  · refine ⟨cls.Name, BaseName_of_not_mem hc hn, hn, fun _ => rfl, fun h => absurd h hn, ?_⟩
    intro g2 c2 cls2 hc2 hname
    rw [← hname]
    exact BaseName_of_not_mem hc2 (by rw [hname]; exact hn)
  · refine ⟨⟨suf⟩, BaseName_of_split hc hx hs, hs, ?_, ?_, ?_⟩
    · intro hn
      exact absurd (by rw [hx]; simp) hn
    · intro _
      refine ⟨⟨pre⟩, ?_⟩
      apply String.ext
      rw [hx]
      simp [String.data_append]
    · intro g2 c2 cls2 hc2 hname
      have := BaseName_of_not_mem hc2 (by rw [hname]; exact hs)
      rw [this, hname]

/-- Witness of C16 on a class whose name carries a namespace. -/
theorem BaseName_strips_namespace_witness :
    ∃ b : ZString, BaseName exNamespaced 0 = some b ∧ '\\' ∉ b.data ∧
      ('\\' ∉ ("App\\Models\\User" : ZString).data → b = "App\\Models\\User") ∧
      ('\\' ∈ ("App\\Models\\User" : ZString).data →
        ∃ ns : ZString, "App\\Models\\User" = ns ++ "\\" ++ b) ∧
      (∀ g2 c2 cls2, g2.classes[c2]? = some cls2 → cls2.Name = b →
        BaseName g2 c2 = some b) :=
  BaseName_strips_namespace exNamespaced 0 (exClass "App\\Models\\User" "" [] [] [])
    (by decide)

/-- C17: after a successful `compile` of any class `c`, `c.InstanceOf(x)`
answers, and it answers true exactly when `c` declares a non-empty parent name
and `x` is the class the registry returned for that name; so a class that
declares no parent is an instance of nothing, and `c.InstanceOf(c)` is true
only if the registry returned `c` itself for the parent name `c` declares. -/
theorem InstanceOf_after_compile (ctx : Context) (g g1 : Global) (c x : ClassRef)
    (cls : ZClass) (hc : g.classes[c]? = some cls)
    (h : compile ctx g c = some (g1, none)) :
    (∃ b, InstanceOf g1 c x = some b ∧
        (b = true ↔ cls.ExtendsStr ≠ "" ∧ GetClass g cls.ExtendsStr = .ok x)) ∧
      (cls.ExtendsStr = "" → ∀ y, InstanceOf g1 c y = some false) ∧
      (InstanceOf g1 c c = some true → GetClass g cls.ExtendsStr = .ok c) := by
  obtain ⟨cls1, cm, ps, hcases, -, -, -, hg1⟩ := compile_success_class hc h
  have hfin : g1.classes[c]? = some { cls1 with Const := cm } := by
    rw [hg1]; exact classes_setClass_self _ hc
  have hin : ∀ y, InstanceOf g1 c y = some (cls1.parents.found y) := by
    intro y
    unfold InstanceOf
    rw [hfin]
  have honly : ∀ y, InstanceOf g1 c y = some true →
      cls.ExtendsStr ≠ "" ∧ GetClass g cls.ExtendsStr = .ok y := by
    obtain ⟨cls2, hc2, -, -, hI⟩ := compile_leaves_interfaces ctx g g1 c cls hc h
    exact hI
  refine ⟨⟨cls1.parents.found x, hin x, ?_⟩, ?_, ?_⟩
  · constructor
    · intro hb
      exact honly x (by rw [hin x, hb])
    · rintro ⟨hne, hget⟩
      have := instanceOf_direct_parent ctx g g1 c x cls hc hne hget h
      rw [hin x] at this
      exact Option.some.inj this
  · intro he y
    rw [hin y]
    cases hb : cls1.parents.found y with
    | false => rfl
    | true =>
      have := honly y (by rw [hin y, hb])
      exact absurd he this.1
  · intro hself
    exact (honly c hself).2

/-- Witness of C17: `A` names `B`; after `compile`, it is an instance of `B`
and of nothing else. -/
theorem InstanceOf_after_compile_witness :
    (∃ b, InstanceOf (stateAfterCompile exCtx exBound 0) 0 2 = some b ∧
        (b = true ↔ ("B" : ZString) ≠ "" ∧ GetClass exBound "B" = .ok 2)) ∧
      (("B" : ZString) = "" →
        ∀ y, InstanceOf (stateAfterCompile exCtx exBound 0) 0 y = some false) ∧
      (InstanceOf (stateAfterCompile exCtx exBound 0) 0 0 = some true →
        GetClass exBound "B" = .ok 0) :=
  InstanceOf_after_compile exCtx exBound (stateAfterCompile exCtx exBound 0) 0 2
    (exClass "A" "B" [("X", .compileDelayed 1), ("Y", .scalar 5)] [0, 1, 2] [("f", 0)])
    (by decide) (by decide)

/-- C18: the loop check of `compile` cannot fire: in the map that `compile` has
just made, the membership test is false for every looked-up parent, and for
every class, registry and parent name the error `compile` returns is never
"class extends loop found". -/
theorem compile_loop_check_never_fires (ctx : Context) (g g1 : Global) (c : ClassRef)
    (r : Option Err) (h : compile ctx g c = some (g1, r)) :
    r ≠ some .extendsLoop ∧
      ∀ (cls : ZClass) (subc : ClassRef),
        ({ cls with parents := .make [] } : ZClass).parents.found subc = false :=
  ⟨compile_not_extendsLoop h, fun _ _ => rfl⟩

/-- Witness of C18 on the class that names itself as its parent. -/
theorem compile_loop_check_never_fires_witness :
    (none : Option Err) ≠ some .extendsLoop ∧
      ∀ (cls : ZClass) (subc : ClassRef),
        ({ cls with parents := .make [] } : ZClass).parents.found subc = false :=
  compile_loop_check_never_fires exCtx
    { exSelf with registry := [("S", 0)] }
    (stateAfterCompile exCtx { exSelf with registry := [("S", 0)] } 0) 0 none (by decide)

/-- C19: `compile` of a class `c` leaves every other descriptor `p`, its
resolved parent in particular, exactly as it was (`p.Methods`, `p.Const`,
`p.Props`, `p.Extends` and the ancestor set of `p`); it leaves every property
that is not one of `c.Props`, the method entries, the static tables and the
registry as they were: only fields of `c` and the defaults of its properties
change. -/
theorem compile_leaves_other_classes (ctx : Context) (g g1 : Global) (c p : ClassRef)
    (cls : ZClass) (r : Option Err) (hc : g.classes[c]? = some cls) (hne : p ≠ c)
    (h : compile ctx g c = some (g1, r)) :
    g1.classes[p]? = g.classes[p]? ∧
      (∀ q, q ∉ cls.Props → g1.props[q]? = g.props[q]?) ∧
      g1.methods = g.methods ∧ g1.tables = g.tables ∧ g1.registry = g.registry := by
  obtain ⟨cls0, cls1, -, hcl, hreg, hm, ht, -⟩ := compile_frame h
  refine ⟨?_, compile_props_frame hc h, hm, ht, hreg⟩
  rw [hcl, List.getElem?_set_ne (Ne.symm hne)]

/-- Witness of C19: `compile` of `A`, whose parent is `B`. -/
theorem compile_leaves_other_classes_witness :
    (stateAfterCompile exCtx exBound 0).classes[1]? = exBound.classes[1]? ∧
      (∀ q, q ∉ [0, 1, 2] →
        (stateAfterCompile exCtx exBound 0).props[q]? = exBound.props[q]?) ∧
      (stateAfterCompile exCtx exBound 0).methods = exBound.methods ∧
      (stateAfterCompile exCtx exBound 0).tables = exBound.tables ∧
      (stateAfterCompile exCtx exBound 0).registry = exBound.registry :=
  compile_leaves_other_classes exCtx exBound (stateAfterCompile exCtx exBound 0) 0 1
    (exClass "A" "B" [("X", .compileDelayed 1), ("Y", .scalar 5)] [0, 1, 2] [("f", 0)])
    none (by decide) (by decide) (by decide)

end Goro
